import Mathlib

/-
Verification of the Fortune 500 dashboard data pipeline (src/app.py).

The pipeline is shallowly embedded at the level of cell values.  A CSV
file is modelled as a list of named columns of cell strings (the
quoting/escaping layer of the CSV format, which pandas round-trips
exactly, is abstracted away).  Pandas float64 scalars are modelled
exactly as rationals together with the IEEE special values NaN and
+-infinity; floating-point rounding is not modelled (the spec itself
mandates sums "over the full numeric domain, not truncated"), and the
dtype inference of `pd.read_csv` is modelled per column: a column is
numeric when every cell is an NA sentinel or parses as a number,
otherwise it is an object column retaining its strings.
-/

namespace F500

/-- A scalar held in one dataframe cell: a retained string (object
dtype), or a float modelled exactly as a rational together with the
IEEE special values produced by pandas arithmetic. -/
inductive Value where
  | str (s : String)
  | num (q : ℚ)
  | nan
  | inf
  | neginf
deriving DecidableEq

/-- A raw CSV table: named columns of raw cell strings. -/
abbrev RawTable := List (String × List String)

/-- A loaded dataframe: named columns of cell values. -/
abbrev DataTable := List (String × List Value)

/-- Character of a decimal digit. -/
def digitChar (d : ℕ) : Char := Char.ofNat (48 + d % 10)

/-- Numeric value of a decimal digit character. -/
def charDigit (c : Char) : ℕ := c.toNat - 48

/-- Value of a big-endian digit string. -/
def digitsVal (cs : List Char) : ℕ := cs.foldl (fun a c => 10 * a + charDigit c) 0

/-- Reads a nonempty all-digit character list as a natural number. -/
def readNatDigits (cs : List Char) : Option ℕ :=
  if cs.isEmpty then none
  else if cs.all Char.isDigit then some (digitsVal cs) else none

/-- Splits a character list on a separator, keeping empty groups
(mirrors how a numeric literal decomposes around `.` and `e`). -/
def splitOnCh (sep : Char) : List Char → List (List Char)
  | [] => [[]]
  | c :: cs =>
    if c = sep then [] :: splitOnCh sep cs
    else
      match splitOnCh sep cs with
      | [] => [[c]]
      | g :: gs => (c :: g) :: gs

/-- Parses an unsigned decimal mantissa `digits[.digits]` as a pair
`(n, k)` denoting the value `n / 10 ^ k`. -/
def parseMantNat (cs : List Char) : Option (ℕ × ℕ) :=
  match splitOnCh '.' cs with
  | [ip] => (readNatDigits ip).map (fun v => (v, 0))
  | [ip, fp] =>
    if ip.isEmpty && fp.isEmpty then none
    else if ip.all Char.isDigit && fp.all Char.isDigit then
      some (digitsVal (ip ++ fp), fp.length)
    else none
  | _ => none

/-- Parses a signed decimal mantissa as `(n, k)` denoting `n / 10 ^ k`. -/
def parseSignMant (cs : List Char) : Option (ℤ × ℕ) :=
  match cs with
  | c :: rest =>
    if c = '-' then (parseMantNat rest).map (fun p => (-(p.1 : ℤ), p.2))
    else if c = '+' then (parseMantNat rest).map (fun p => ((p.1 : ℤ), p.2))
    else (parseMantNat (c :: rest)).map (fun p => ((p.1 : ℤ), p.2))
  | [] => none

/-- Parses a signed integer exponent. -/
def parseExpInt (cs : List Char) : Option ℤ :=
  match cs with
  | c :: rest =>
    if c = '-' then (readNatDigits rest).map (fun v => -(v : ℤ))
    else if c = '+' then (readNatDigits rest).map (fun v => (v : ℤ))
    else (readNatDigits (c :: rest)).map (fun v => (v : ℤ))
  | [] => none

/-- Parses a decimal float literal `[+-]digits[.digits][e[+-]digits]`
exactly, as a rational. -/
def parseChars (cs : List Char) : Option ℚ :=
  let lcs := cs.map (fun c => if c = 'E' then 'e' else c)
  match splitOnCh 'e' lcs with
  | [m] => (parseSignMant m).map (fun p => (p.1 : ℚ) / 10 ^ p.2)
  | [m, ex] =>
    match parseSignMant m, parseExpInt ex with
    | some p, some e => some ((p.1 : ℚ) / 10 ^ p.2 * (10 : ℚ) ^ e)
    | _, _ => none
  | _ => none

/-- Parses a string as a number the way the pandas numeric converters do. -/
def parseNum (s : String) : Option ℚ := parseChars s.data

/-- Lower-cased characters of a string. -/
def lowerChars (s : String) : List Char := s.data.map Char.toLower

/-- Spellings of infinity accepted by the pandas parsers. -/
def infWords : List (List Char) := ["inf".data, "infinity".data]

/-- Numeric interpretation of a cell string: an exact rational, or an
infinity literal; `none` when the string is not numeric. -/
def parseNumValue (s : String) : Option Value :=
  match parseNum s with
  | some q => some (.num q)
  | none =>
    let l := lowerChars s
    if infWords.any (fun w => decide (l = w) || decide (l = '+' :: w)) then some .inf
    else if infWords.any (fun w => decide (l = '-' :: w)) then some .neginf
    else none

/-- Default NA sentinels of `pd.read_csv`. -/
def naStrings : List String :=
  ["", "#N/A", "#N/A N/A", "#NA", "-1.#IND", "-1.#QNAN", "-NaN", "-nan",
    "1.#IND", "1.#QNAN", "<NA>", "N/A", "NA", "NULL", "NaN", "None", "n/a",
    "nan", "null"]

/-- Whether a raw cell is an NA sentinel. -/
def isNA (s : String) : Bool := naStrings.any (fun t => decide (s = t))

/-- A cell converts to a number (or NA) under `read_csv` dtype inference. -/
def cellNumeric (s : String) : Bool := isNA s || (parseNumValue s).isSome

/-- A column is inferred numeric when every cell converts. -/
def colIsNumeric (cells : List String) : Bool := cells.all cellNumeric

/-- Reads one cell given the dtype of its column. -/
def readCell (numeric : Bool) (s : String) : Value :=
  if isNA s then .nan
  else if numeric then (parseNumValue s).getD .nan
  else .str s

/-- Reads one raw column with per-column dtype inference. -/
def readColumn (cells : List String) : List Value :=
  cells.map (readCell (colIsNumeric cells))

/-- Models `pd.read_csv`: per-column conversion; a file without columns
raises `EmptyDataError`. -/
def read_csv (raw : RawTable) : Except String DataTable :=
  if raw.isEmpty then .error "No columns to parse from file"
  else .ok (raw.map (fun c => (c.1, readColumn c.2)))

/-- Models `str.strip`: removes leading and trailing whitespace. -/
def stripStr (s : String) : String :=
  ⟨((s.data.dropWhile Char.isWhitespace).reverse.dropWhile Char.isWhitespace).reverse⟩

/-- Models `.str.replace(",", "")`: removes every comma. -/
def stripCommas (s : String) : String := ⟨s.data.filter (fun c => !(c = ','))⟩

/-- Whether a cell is a retained string. -/
def isStrCell : Value → Bool
  | .str _ => true
  | _ => false

/-- A loaded column has object dtype iff it retains some string. -/
def colIsObject (col : List Value) : Bool := col.any isStrCell

/-- Models `pd.to_numeric(x.str.replace(",", ""), errors="coerce")` on
one cell of an object column. -/
def coerceCell : Value → Value
  | .str s => (parseNumValue (stripCommas s)).getD .nan
  | v => v

/-- Models `.fillna(0)` on one cell. -/
def fillZero (v : Value) : Value := if v = .nan then .num 0 else v

/-- Models lines 30-35 of app.py for one column: numeric coercion with
zero fill, applied only when the column has object dtype. -/
def cleanCol (col : List Value) : List Value :=
  if colIsObject col then col.map (fun v => fillZero (coerceCell v)) else col

/-- The three columns cleaned by `load_data`. -/
def isMoneyCol (n : String) : Bool :=
  decide (n = "REVENUES") || decide (n = "PROFIT") || decide (n = "EMPLOYEES")

/-- Applies the numeric cleaning of lines 30-35 of app.py. -/
def cleanDF (df : DataTable) : DataTable :=
  df.map (fun c => if isMoneyCol c.1 then (c.1, cleanCol c.2) else c)

/-- Pandas float division of two cells, with the IEEE special values:
division by zero yields NaN for 0/0 and a signed infinity otherwise.
String operands cannot reach the division at line 38 of app.py (the
operand columns are always numeric there); they map to NaN. -/
def vdiv : Value → Value → Value
  | .str _, _ => .nan
  | .num _, .str _ => .nan
  | .nan, _ => .nan
  | .num _, .nan => .nan
  | .num x, .num y =>
    if y = 0 then (if x = 0 then .nan else if 0 < x then .inf else .neginf)
    else .num (x / y)
  | .num _, .inf => .num 0
  | .num _, .neginf => .num 0
  | .inf, .str _ => .nan
  | .inf, .nan => .nan
  | .inf, .num y => if 0 ≤ y then .inf else .neginf
  | .inf, .inf => .nan
  | .inf, .neginf => .nan
  | .neginf, .str _ => .nan
  | .neginf, .nan => .nan
  | .neginf, .num y => if 0 ≤ y then .neginf else .inf
  | .neginf, .inf => .nan
  | .neginf, .neginf => .nan

/-- First column of the given name, as `df[name]`. -/
def getCol (df : DataTable) (n : String) : Option (List Value) :=
  (df.find? (fun c => decide (c.1 = n))).map (fun c => c.2)

/-- Whether `name in df` holds. -/
def hasColD (df : DataTable) (n : String) : Bool := df.any (fun c => decide (c.1 = n))

/-- Models `df[name] = col`: replaces the column in place, or appends it. -/
def setCol (df : DataTable) (n : String) (col : List Value) : DataTable :=
  if hasColD df n then df.map (fun c => if c.1 = n then (n, col) else c)
  else df ++ [(n, col)]

/-- Column lookup that raises `KeyError` when the column is absent. -/
def requireCol (df : DataTable) (n : String) : Except String (List Value) :=
  match getCol df n with
  | some c => Except.ok c
  | none => Except.error ("KeyError: " ++ n)

/-- The body of the `try` block of `load_data` (lines 24-39 of app.py):
read the CSV, strip column names, clean the three numeric columns, and
derive `REVENUE_PER_EMPLOYEE = (REVENUES / EMPLOYEES).fillna(0)`. -/
def load_steps (raw : RawTable) : Except String DataTable :=
  match read_csv raw with
  | .error e => .error e
  | .ok df0 =>
    match requireCol (cleanDF (df0.map (fun c => (stripStr c.1, c.2)))) "REVENUES" with
    | .error e => .error e
    | .ok rev =>
      match requireCol (cleanDF (df0.map (fun c => (stripStr c.1, c.2)))) "EMPLOYEES" with
      | .error e => .error e
      | .ok emp => .ok (setCol (cleanDF (df0.map (fun c => (stripStr c.1, c.2))))
          "REVENUE_PER_EMPLOYEE" ((List.zipWith vdiv rev emp).map fillZero))

/-- Models `load_data` (lines 22-42 of app.py): any exception in the
steps is caught and an empty dataframe is returned. -/
def load_data (raw : RawTable) : DataTable :=
  match load_steps raw with
  | .ok df => df
  | .error _ => []

/-- Writes the little-endian digits of a natural number. -/
def natDigitsLE (n : ℕ) : List Char :=
  if h : n = 0 then [] else digitChar (n % 10) :: natDigitsLE (n / 10)
decreasing_by exact Nat.div_lt_self (Nat.pos_of_ne_zero h) (by norm_num)

/-- Big-endian digits of a natural number (empty for zero). -/
def natDigitsBE (n : ℕ) : List Char := (natDigitsLE n).reverse

/-- Left-pads a digit list with zeros to the given length. -/
def padZeros (m : ℕ) (l : List Char) : List Char := List.replicate (m - l.length) '0' ++ l

/-- Digit string with a decimal point inserted before the last `k`
digits (absent for whole numbers, as pandas prints integers). -/
def decCore (ds : List Char) (k : ℕ) : List Char :=
  if k = 0 then ds else ds.take (ds.length - k) ++ '.' :: ds.drop (ds.length - k)

/-- Writes the decimal literal of `n / 10 ^ k` with `k` fractional digits. -/
def writeDec (n : ℤ) (k : ℕ) : String :=
  ⟨if n < 0 then '-' :: decCore (padZeros (k + 1) (natDigitsBE n.natAbs)) k
    else decCore (padZeros (k + 1) (natDigitsBE n.natAbs)) k⟩

/-- Serializes a rational as pandas serializes a float.  Exact for every
rational with a 10-smooth denominator, which covers every numeric value
a loaded column can hold; the only other rationals in a loaded frame
occur in the derived ratio column, which re-loading overwrites. -/
def writeNum (q : ℚ) : String :=
  writeDec (q * (10 : ℚ) ^ Nat.log2 q.den).num (Nat.log2 q.den)

/-- Serializes one cell as `to_csv` does. -/
def writeCell : Value → String
  | .str s => s
  | .num q => writeNum q
  | .nan => ""
  | .inf => "inf"
  | .neginf => "-inf"

/-- Models `df.to_csv` (line 347 of app.py) at the cell level. -/
def to_csv (df : DataTable) : RawTable := df.map (fun c => (c.1, c.2.map writeCell))

/-- Models `df.empty`: some axis has length zero. -/
def dfEmptyB (df : DataTable) : Bool := df.all (fun c => c.2.isEmpty)

/-- Pandas float addition of two cells. -/
def vadd : Value → Value → Value
  | .str _, _ => .nan
  | .num _, .str _ => .nan
  | .nan, _ => .nan
  | .num _, .nan => .nan
  | .num x, .num y => .num (x + y)
  | .inf, .str _ => .nan
  | .inf, .nan => .nan
  | .inf, .neginf => .nan
  | .inf, _ => .inf
  | .num _, .inf => .inf
  | .neginf, .str _ => .nan
  | .neginf, .nan => .nan
  | .neginf, .inf => .nan
  | .neginf, _ => .neginf
  | .num _, .neginf => .neginf

/-- One step of a skip-NA pandas sum. -/
def skipAdd (a v : Value) : Value := if v = .nan then a else vadd a v

/-- Models `Series.sum()`: NaN-skipping fold starting from zero. -/
def psum (col : List Value) : Value := col.foldl skipAdd (.num 0)

/-- Models `calculate_summary` (lines 49-54 of app.py): `(0, 0)` for an
empty frame, otherwise the two column sums; `none` models the KeyError
raised when a summed column is absent from a nonempty frame. -/
def calculate_summary (df : DataTable) : Option (Value × Value) :=
  if dfEmptyB df then some (.num 0, .num 0)
  else
    match getCol df "REVENUES", getCol df "EMPLOYEES" with
    | some rv, some em => some (psum rv, psum em)
    | _, _ => none

/-- Models `Series.mean()` (line 253 of app.py): NaN-skipping sum
divided by the count of non-NaN entries; NaN on an empty series. -/
def series_mean (col : List Value) : Value :=
  let vals := col.filter (fun v => !(v = .nan))
  vdiv (psum vals) (.num vals.length)

/-- Models the pandas `>=` comparison on cells: NaN compares False, and
mixed string comparisons (which would raise in pandas, and are
unreachable on the numeric columns the app compares) are False. -/
def vge : Value → Value → Bool
  | .str _, _ => false
  | _, .str _ => false
  | .nan, _ => false
  | _, .nan => false
  | .num x, .num y => decide (y ≤ x)
  | .inf, _ => true
  | _, .inf => false
  | .num _, .neginf => true
  | .neginf, .neginf => true
  | .neginf, .num _ => false

/-- Models the pandas strict `>` comparison on cells. -/
def vgt : Value → Value → Bool
  | .str _, _ => false
  | _, .str _ => false
  | .nan, _ => false
  | _, .nan => false
  | .num x, .num y => decide (y < x)
  | .inf, .inf => false
  | .inf, _ => true
  | _, .inf => false
  | .num _, .neginf => true
  | .neginf, _ => false

/-- Larger of two cells, as the fold step of `Series.max()`. -/
def vmax (a b : Value) : Value := if vge a b then a else b

/-- Models `Series.max()`: NaN-skipping maximum, NaN when empty. -/
def pmax (col : List Value) : Value :=
  match col.filter (fun v => !(v = .nan)) with
  | [] => .nan
  | v :: vs => vs.foldl vmax v

/-- Boolean mask `df[metric] >= threshold`. -/
def maskGe (col : List Value) (t : Value) : List Bool := col.map (fun v => vge v t)

/-- Models `df[mask]`: keeps the rows whose mask entry is true. -/
def applyMask (df : DataTable) (m : List Bool) : DataTable :=
  df.map (fun c => (c.1, ((c.2.zip m).filter (fun p => p.2)).map (fun p => p.1)))

/-- Models the mask step of line 247 of app.py,
`df[df[metric] >= threshold]`; `none` when the metric column is absent. -/
def filterGe (df : DataTable) (metric : String) (t : Value) : Option DataTable :=
  (getCol df metric).map (fun col => applyMask df (maskGe col t))

/-- Zips four equally long columns into rows. -/
def zip4 : List Value → List Value → List Value → List Value →
    List (Value × Value × Value × Value)
  | a :: as, b :: bs, c :: cs, d :: ds => (a, b, c, d) :: zip4 as bs cs ds
  | _, _, _, _ => []

/-- One group-by step: add a row into the accumulated per-key sums. -/
def upsert (acc : List (Value × Value × Value × Value)) (k r p e : Value) :
    List (Value × Value × Value × Value) :=
  match acc with
  | [] => [(k, skipAdd (.num 0) r, skipAdd (.num 0) p, skipAdd (.num 0) e)]
  | (k0, sr, sp, se) :: rest =>
    if k0 = k then (k0, skipAdd sr r, skipAdd sp p, skipAdd se e) :: rest
    else (k0, sr, sp, se) :: upsert rest k r p e

/-- One row of the group-by pass: rows whose state key is NaN are
dropped, as `groupby` does; the rest update their state entry. -/
def groupStep (acc : List (Value × Value × Value × Value))
    (r : Value × Value × Value × Value) : List (Value × Value × Value × Value) :=
  if r.1 = .nan then acc else upsert acc r.1 r.2.1 r.2.2.1 r.2.2.2

/-- Models line 91 of app.py,
`df.groupby("STATE")[["REVENUES", "PROFIT", "EMPLOYEES"]].sum()`:
a single pass accumulating per-state sums; NaN state keys are dropped,
as `groupby` does.  Key order is first appearance (pandas sorts the
keys, which no claim observes). -/
def state_aggregates (df : DataTable) : Option (List (Value × Value × Value × Value)) :=
  match getCol df "STATE", getCol df "REVENUES", getCol df "PROFIT", getCol df "EMPLOYEES" with
  | some st, some rv, some pf, some em => some ((zip4 st rv pf em).foldl groupStep [])
  | _, _, _, _ => none

/-- Looks up the aggregate row of one state key. -/
def aggLookup (agg : List (Value × Value × Value × Value)) (k : Value) :
    Option (Value × Value × Value) :=
  (agg.find? (fun e => decide (e.1 = k))).map (fun e => e.2)

/-- Revenue (profit, employee) cells of the records whose state equals
the given key, in dataset order. -/
def selectVals (st col : List Value) (k : Value) : List Value :=
  ((st.zip col).filter (fun p => decide (p.1 = k))).map (fun p => p.2)

/-- Row indices of a metric column paired with their values. -/
def rowsOf (col : List Value) : List (ℕ × Value) := (List.range col.length).zip col

/-- Rows passing the threshold filter of line 247 of app.py. -/
def filteredIdx (col : List Value) (t : Value) : List (ℕ × Value) :=
  (rowsOf col).filter (fun p => vge p.2 t)

/-- Stable descending insertion: a row moves past only strictly greater
keys, so earlier rows stay first among ties (pandas `keep="first"`). -/
def insertDesc (x : ℕ × Value) : List (ℕ × Value) → List (ℕ × Value)
  | [] => [x]
  | h :: tl => if vgt h.2 x.2 then h :: insertDesc x tl else x :: h :: tl

/-- Stable descending sort by metric value. -/
def sortDesc (l : List (ℕ × Value)) : List (ℕ × Value) := l.foldr insertDesc []

/-- Models line 247 of app.py: threshold filter then descending sort,
at the level of row indices of the metric column. -/
def filtered_insights (col : List Value) (t : Value) : List (ℕ × Value) :=
  sortDesc (filteredIdx col t)

/-- Models `DataFrame.nlargest(n, metric)`: NaN rows are excluded, the
rest sorted descending (first occurrence first among ties), and the
first `n` rows taken. -/
def nlargestRows (n : ℕ) (l : List (ℕ × Value)) : List (ℕ × Value) :=
  (sortDesc (l.filter (fun p => !(p.2 = .nan)))).take n

/-- Models line 279 of app.py, `filtered_insights.nlargest(top_n, metric)`
(the projection onto the name and metric columns is omitted: the claim
concerns which rows are returned). -/
def top_companies (col : List Value) (t : Value) (n : ℕ) : List (ℕ × Value) :=
  nlargestRows n (filtered_insights col t)

/-- Column of a raw table under the stripped name, as the loaded frame
sees it. -/
def rawGetCol (raw : RawTable) (n : String) : Option (List String) :=
  (raw.find? (fun c => decide (stripStr c.1 = n))).map (fun c => c.2)

/-- Whether the raw table has a column of the given stripped name. -/
def hasStrippedColD (raw : RawTable) (n : String) : Bool :=
  raw.any (fun c => decide (stripStr c.1 = n))

/-- Whether a load attempt succeeded. -/
def isOkE (e : Except String DataTable) : Bool :=
  match e with
  | .ok _ => true
  | .error _ => false

/-- The loaded frame before the derived ratio column is added: read,
strip the column names, clean the three numeric columns. -/
def loadBase (raw : RawTable) : DataTable :=
  cleanDF (raw.map (fun c => (stripStr c.1, readColumn c.2)))

end F500

unseal Rat.mul Rat.add Rat.inv Rat.sub

namespace F500

theorem getCol_readRaw (raw : RawTable) (n : String) :
    getCol (raw.map (fun c => (stripStr c.1, readColumn c.2))) n
      = (rawGetCol raw n).map readColumn := by
  induction raw with
  | nil => rfl
  | cons h t ih =>
    by_cases hh : stripStr h.1 = n
    · simp [getCol, rawGetCol, List.find?, hh]
    · simpa [getCol, rawGetCol, List.find?, hh] using ih

theorem getCol_cleanDF (df : DataTable) (n : String) :
    getCol (cleanDF df) n
      = (getCol df n).map (fun col => if isMoneyCol n then cleanCol col else col) := by
  induction df with
  | nil => rfl
  | cons h t ih =>
    by_cases hh : h.1 = n
    · subst hh
      by_cases hm : isMoneyCol h.1 = true <;>
        simp [getCol, cleanDF, List.find?, hm]
    · by_cases hm : isMoneyCol h.1 = true <;>
        simpa [getCol, cleanDF, List.find?, hm, hh] using ih

theorem getCol_loadBase (raw : RawTable) (n : String) :
    getCol (loadBase raw) n
      = (rawGetCol raw n).map
          (fun cells => if isMoneyCol n then cleanCol (readColumn cells) else readColumn cells) := by
  rw [loadBase, getCol_cleanDF, getCol_readRaw]
  cases rawGetCol raw n <;> simp

theorem getCol_setColMap_ne (df : DataTable) (m n : String) (col : List Value) (h : ¬n = m) :
    getCol (df.map (fun c => if c.1 = m then (m, col) else c)) n = getCol df n := by
  have hmn : ¬m = n := fun hx => h hx.symm
  induction df with
  | nil => rfl
  | cons c t ih =>
    obtain ⟨c1, c2⟩ := c
    by_cases hc : c1 = m
    · have hcn : ¬c1 = n := by rw [hc]; exact hmn
      simpa [getCol, List.find?, hc, hmn, hcn] using ih
    · by_cases hcn : c1 = n
      · simp [getCol, List.find?, hc, hcn, h, hmn]
      · simpa [getCol, List.find?, hc, hcn] using ih

theorem getCol_append_single_ne (df : DataTable) (m n : String) (col : List Value)
    (h : ¬n = m) :
    getCol (df ++ [(m, col)]) n = getCol df n := by
  have hmn : ¬m = n := fun hx => h hx.symm
  induction df with
  | nil => simp [getCol, List.find?, hmn]
  | cons c t ih =>
    obtain ⟨c1, c2⟩ := c
    by_cases hcn : c1 = n
    · simp [getCol, List.find?, hcn]
    · simpa [getCol, List.find?, hcn] using ih

theorem getCol_setCol_ne (df : DataTable) (m n : String) (col : List Value) (h : ¬n = m) :
    getCol (setCol df m col) n = getCol df n := by
  rw [setCol]
  split
  · exact getCol_setColMap_ne df m n col h
  · exact getCol_append_single_ne df m n col h

theorem isEmpty_false_of_ne (raw : RawTable) (h : raw ≠ []) : raw.isEmpty = false := by
  cases raw with
  | nil => exact absurd rfl h
  | cons a t => rfl

theorem load_steps_eq (raw : RawTable) (hne : raw.isEmpty = false) :
    load_steps raw =
      match requireCol (loadBase raw) "REVENUES" with
      | .error e => .error e
      | .ok rev =>
        match requireCol (loadBase raw) "EMPLOYEES" with
        | .error e => .error e
        | .ok emp => .ok (setCol (loadBase raw) "REVENUE_PER_EMPLOYEE"
            ((List.zipWith vdiv rev emp).map fillZero)) := by
  rw [load_steps, read_csv, if_neg (by simp [hne])]
  simp only [List.map_map]
  rfl

theorem load_steps_ok (raw : RawTable) (df : DataTable) (h : load_steps raw = .ok df) :
    ∃ rev emp,
      getCol (loadBase raw) "REVENUES" = some rev ∧
      getCol (loadBase raw) "EMPLOYEES" = some emp ∧
      df = setCol (loadBase raw) "REVENUE_PER_EMPLOYEE"
        ((List.zipWith vdiv rev emp).map fillZero) := by
  have hne : raw.isEmpty = false := by
    cases hraw : raw.isEmpty
    · rfl
    · rw [load_steps, read_csv, if_pos hraw] at h; exact absurd h (by simp)
  rw [load_steps_eq raw hne] at h
  rcases hrev : requireCol (loadBase raw) "REVENUES" with e | rev
  · rw [hrev] at h; exact absurd h (by simp)
  · rw [hrev] at h
    rcases hemp : requireCol (loadBase raw) "EMPLOYEES" with e | emp
    · rw [hemp] at h; exact absurd h (by simp)
    · rw [hemp] at h
      rw [requireCol] at hrev hemp
      refine ⟨rev, emp, ?_, ?_, ?_⟩
      · rcases hx : getCol (loadBase raw) "REVENUES" with _ | v <;> rw [hx] at hrev <;>
          simp_all
      · rcases hx : getCol (loadBase raw) "EMPLOYEES" with _ | v <;> rw [hx] at hemp <;>
          simp_all
      · exact (Except.ok.inj h).symm

theorem rawGetCol_none_iff (raw : RawTable) (n : String) :
    rawGetCol raw n = none ↔ hasStrippedColD raw n = false := by
  induction raw with
  | nil => simp [rawGetCol, hasStrippedColD]
  | cons c t ih =>
    by_cases hc : stripStr c.1 = n
    · simp [rawGetCol, hasStrippedColD, List.find?, hc]
    · rw [show rawGetCol (c :: t) n = rawGetCol t n by simp [rawGetCol, List.find?, hc]]
      rw [show hasStrippedColD (c :: t) n = hasStrippedColD t n by
        simp [hasStrippedColD, hc]]
      exact ih

theorem load_data_of_error (raw : RawTable) (e : String) (h : load_steps raw = .error e) :
    load_data raw = [] := by
  rw [load_data, h]

/-- C10: on every input where some step of loading fails, `load_data`
catches the exception and returns the empty dataframe instead of
propagating it; it is total by construction. -/
theorem c10_load_total_empty_on_error (raw : RawTable)
    (h : ∃ e, load_steps raw = .error e) : load_data raw = [] := by
  obtain ⟨e, he⟩ := h
  exact load_data_of_error raw e he

/-- C10 witness: the empty input makes `read_csv` raise, and `load_data`
returns the empty dataframe. -/
theorem c10_witness : load_data [] = [] :=
  c10_load_total_empty_on_error [] ⟨"No columns to parse from file", rfl⟩

/-- Input with a positive revenue and zero employees. -/
def rawDivZero : RawTable :=
  [("NAME", ["A"]), ("STATE", ["MA"]), ("REVENUES", ["100"]), ("EMPLOYEES", ["0"])]

/-- C2: the claim that revenue-per-employee is zero for employees = 0 is
the documented intent (the code even ends the derivation with
`.fillna(0)`), but pandas evaluates `100 / 0` to `inf`, not `NaN`, and
`fillna` does not replace `inf`: the loaded ratio is positive infinity,
a non-numeric sentinel the claim rules out. -/
theorem c2_rpe_zero_employees_is_infinite :
    getCol (load_data rawDivZero) "REVENUE_PER_EMPLOYEE" = some [Value.inf] ∧
      Value.inf ≠ Value.num 0 := by
  constructor
  · decide
  · decide

/-- The scenario row of the claim: `NAME="Acme", STATE="ca",
REVENUES="1,000", EMPLOYEES="10"`. -/
def rawAcme : RawTable :=
  [("NAME", ["Acme"]), ("STATE", ["ca"]), ("REVENUES", ["1,000"]), ("EMPLOYEES", ["10"])]

/-- C3 counterexample: loading never upper-cases nor trims state values;
the scenario row loads with state `"ca"`, not the canonical `"CA"`
asserted by the claim. -/
theorem c3_state_not_uppercased_cex :
    getCol (load_data rawAcme) "STATE" = some [Value.str "ca"] ∧
      Value.str "ca" ≠ Value.str "CA" := by
  constructor
  · decide
  · decide

/-- C3 amended: state values pass through loading unchanged (no
upper-casing, no trimming); the scenario row loads as `state="ca"`,
`revenue=1000`, `employees=10`, with derived revenue-per-employee 100. -/
theorem c3_scenario_amended :
    getCol (load_data rawAcme) "STATE" = some [Value.str "ca"] ∧
    getCol (load_data rawAcme) "REVENUES" = some [Value.num 1000] ∧
    getCol (load_data rawAcme) "EMPLOYEES" = some [Value.num 10] ∧
    getCol (load_data rawAcme) "REVENUE_PER_EMPLOYEE" = some [Value.num 100] := by
  refine ⟨by decide, by decide, by decide, by decide⟩

/-- Input having every required column except PROFIT. -/
def rawNoProfit : RawTable :=
  [("NAME", ["A"]), ("STATE", ["MA"]), ("REVENUES", ["10"]), ("EMPLOYEES", ["5"])]

/-- C4 counterexample: with the PROFIT column absent, loading succeeds
and returns a nonempty dataframe; no schema error is raised, refuting
the claim that the absence of any of the five required columns fails the
load. -/
theorem c4_missing_profit_no_error_cex :
    isOkE (load_steps rawNoProfit) = true ∧ load_data rawNoProfit ≠ [] := by
  constructor
  · decide
  · decide

/-- C4 amended: only REVENUES and EMPLOYEES are load-critical.  When
REVENUES is absent (or REVENUES present and EMPLOYEES absent) the
derived-column step raises a `KeyError` naming that column, the error is
reported and an empty dataframe is returned; when both are present the
load succeeds, so NAME, STATE and PROFIT may be absent without any
load-time error. -/
theorem c4_missing_column_behavior_amended (raw : RawTable) (hne : raw ≠ []) :
    (hasStrippedColD raw "REVENUES" = false →
      load_steps raw = .error "KeyError: REVENUES" ∧ load_data raw = []) ∧
    (hasStrippedColD raw "REVENUES" = true → hasStrippedColD raw "EMPLOYEES" = false →
      load_steps raw = .error "KeyError: EMPLOYEES" ∧ load_data raw = []) ∧
    (hasStrippedColD raw "REVENUES" = true → hasStrippedColD raw "EMPLOYEES" = true →
      isOkE (load_steps raw) = true) := by
  have hbase : ∀ n, getCol (loadBase raw) n
      = (rawGetCol raw n).map
          (fun cells => if isMoneyCol n then cleanCol (readColumn cells) else readColumn cells) :=
    fun n => getCol_loadBase raw n
  have hsteps := load_steps_eq raw (isEmpty_false_of_ne raw hne)
  refine ⟨?_, ?_, ?_⟩
  · intro hrev
    have : rawGetCol raw "REVENUES" = none := (rawGetCol_none_iff raw _).mpr hrev
    have herr : load_steps raw = .error "KeyError: REVENUES" := by
      rw [hsteps, requireCol, hbase, this]
      rfl
    exact ⟨herr, load_data_of_error raw _ herr⟩
  · intro hrev hemp
    have hnone : rawGetCol raw "EMPLOYEES" = none := (rawGetCol_none_iff raw _).mpr hemp
    have hsomer : ∃ cells, rawGetCol raw "REVENUES" = some cells := by
      rcases hx : rawGetCol raw "REVENUES" with _ | cells
      · rw [(rawGetCol_none_iff raw _).mp hx] at hrev; exact absurd hrev (by simp)
      · exact ⟨cells, rfl⟩
    obtain ⟨cells, hc⟩ := hsomer
    have herr : load_steps raw = .error "KeyError: EMPLOYEES" := by
      rw [hsteps]
      rw [show requireCol (loadBase raw) "REVENUES"
          = .ok (cleanCol (readColumn cells)) by rw [requireCol, hbase, hc]; rfl]
      rw [show requireCol (loadBase raw) "EMPLOYEES"
          = .error "KeyError: EMPLOYEES" by rw [requireCol, hbase, hnone]; rfl]
    exact ⟨herr, load_data_of_error raw _ herr⟩
  · intro hrev hemp
    have hsomer : ∃ cells, rawGetCol raw "REVENUES" = some cells := by
      rcases hx : rawGetCol raw "REVENUES" with _ | cells
      · rw [(rawGetCol_none_iff raw _).mp hx] at hrev; exact absurd hrev (by simp)
      · exact ⟨cells, rfl⟩
    have hsomee : ∃ cells, rawGetCol raw "EMPLOYEES" = some cells := by
      rcases hx : rawGetCol raw "EMPLOYEES" with _ | cells
      · rw [(rawGetCol_none_iff raw _).mp hx] at hemp; exact absurd hemp (by simp)
      · exact ⟨cells, rfl⟩
    obtain ⟨cr, hcr⟩ := hsomer
    obtain ⟨ce, hce⟩ := hsomee
    rw [hsteps]
    rw [show requireCol (loadBase raw) "REVENUES"
        = .ok (cleanCol (readColumn cr)) by rw [requireCol, hbase, hcr]; rfl]
    rw [show requireCol (loadBase raw) "EMPLOYEES"
        = .ok (cleanCol (readColumn ce)) by rw [requireCol, hbase, hce]; rfl]
    rfl

/-- C4 witness: a table whose only column is NAME loads to the empty
dataframe with a `KeyError` naming REVENUES. -/
theorem c4_witness :
    ([(("NAME" : String), ["A"])] : RawTable) ≠ [] ∧
    hasStrippedColD [("NAME", ["A"])] "REVENUES" = false ∧
    load_steps [("NAME", ["A"])] = .error "KeyError: REVENUES" ∧
    load_data [("NAME", ["A"])] = [] := by
  refine ⟨by decide, by decide, ?_⟩
  have h := (c4_missing_column_behavior_amended [("NAME", ["A"])] (by decide)).1 (by decide)
  exact ⟨h.1, h.2⟩

/-- C6 counterexample: the claim defines the average over an empty
record set as zero, but the pandas mean the code relies on evaluates to
NaN on an empty series (the code only avoids it by never computing an
average for an empty set). -/
theorem c6_empty_mean_nan_cex :
    series_mean [] = Value.nan ∧ Value.nan ≠ Value.num 0 := by
  constructor
  · decide
  · decide

/-- C6 amended: summarizing an empty record set yields total revenue 0
and total employees 0 without raising; no average is computed for an
empty set (the insights tab guards on emptiness), and the underlying
mean of an empty column is NaN, not 0. -/
theorem c6_empty_summary_zero_amended (df : DataTable) (h : dfEmptyB df = true) :
    calculate_summary df = some (Value.num 0, Value.num 0) := by
  rw [calculate_summary, if_pos h]

/-- C6 witness: the empty dataframe is empty and summarizes to zeros. -/
theorem c6_witness :
    dfEmptyB [] = true ∧ calculate_summary [] = some (Value.num 0, Value.num 0) :=
  ⟨by decide, c6_empty_summary_zero_amended [] (by decide)⟩

theorem cleanCol_length (col : List Value) : (cleanCol col).length = col.length := by
  rw [cleanCol]; split <;> simp

theorem readColumn_length (cells : List String) : (readColumn cells).length = cells.length := by
  simp [readColumn]

theorem loadBase_lengths (raw : RawTable) (L : ℕ) (hlen : ∀ p ∈ raw, p.2.length = L) :
    ∀ p ∈ loadBase raw, p.2.length = L := by
  intro p hp
  rw [loadBase, cleanDF] at hp
  simp only [List.map_map, List.mem_map, Function.comp] at hp
  obtain ⟨r, hr, hpr⟩ := hp
  rw [← hpr]
  split
  · rw [cleanCol_length, readColumn_length]; exact hlen r hr
  · rw [readColumn_length]; exact hlen r hr

theorem getCol_mem (df : DataTable) (n : String) (col : List Value)
    (h : getCol df n = some col) : ∃ m, (m, col) ∈ df := by
  rw [getCol] at h
  rcases hf : df.find? (fun c => decide (c.1 = n)) with _ | c
  · rw [hf] at h; cases h
  · rw [hf] at h
    have hc := List.mem_of_find?_eq_some hf
    refine ⟨c.1, ?_⟩
    have h2 : c.2 = col := Option.some.inj h
    rw [← h2]
    exact hc

theorem setCol_lengths (df : DataTable) (n : String) (col : List Value) (L : ℕ)
    (hdf : ∀ p ∈ df, p.2.length = L) (hc : col.length = L) :
    ∀ p ∈ setCol df n col, p.2.length = L := by
  intro p hp
  rw [setCol] at hp
  split at hp
  · simp only [List.mem_map] at hp
    obtain ⟨q, hq, hpq⟩ := hp
    by_cases h1 : q.1 = n
    · rw [if_pos h1] at hpq; rw [← hpq]; exact hc
    · rw [if_neg h1] at hpq; rw [← hpq]; exact hdf q hq
  · rcases List.mem_append.mp hp with h1 | h2
    · exact hdf p h1
    · have : p = (n, col) := by simpa using h2
      rw [this]; exact hc

/-- C1: whenever the load succeeds, a row whose REVENUES, PROFIT or
EMPLOYEES cell is present (not an NA sentinel) but unparsable as a
number — neither directly nor after removing thousands separators —
loads with that cell normalized to zero, and every column of the loaded
frame still has the full row count: no row is dropped. -/
theorem c1_unparsable_zero_filled_row_kept
    (raw : RawTable) (df : DataTable) (L : ℕ) (n : String) (cells : List String)
    (i : ℕ) (c : String)
    (hload : load_steps raw = .ok df)
    (hlen : ∀ p ∈ raw, p.2.length = L)
    (hn : n = "REVENUES" ∨ n = "PROFIT" ∨ n = "EMPLOYEES")
    (hcol : rawGetCol raw n = some cells)
    (hcell : cells.get? i = some c)
    (hpresent : isNA c = false)
    (hplain : parseNumValue c = none)
    (hstrip : parseNumValue (stripCommas c) = none) :
    (∀ p ∈ df, p.2.length = L) ∧
    ∃ col, getCol df n = some col ∧ col.get? i = some (Value.num 0) := by
  obtain ⟨rev, emp, hrev, hemp, hdf⟩ := load_steps_ok raw df hload
  have hbaseLen : ∀ p ∈ loadBase raw, p.2.length = L := loadBase_lengths raw L hlen
  have hrevLen : rev.length = L := by
    obtain ⟨m, hm⟩ := getCol_mem _ _ _ hrev
    exact hbaseLen (m, rev) hm
  have hempLen : emp.length = L := by
    obtain ⟨m, hm⟩ := getCol_mem _ _ _ hemp
    exact hbaseLen (m, emp) hm
  have hnne : ¬n = "REVENUE_PER_EMPLOYEE" := by
    rcases hn with h | h | h <;> rw [h] <;> decide
  have hmoney : isMoneyCol n = true := by
    rcases hn with h | h | h <;> rw [h] <;> decide
  have hcmem : c ∈ cells := List.get?_mem hcell
  have hnotnum : colIsNumeric cells = false := by
    cases hx : colIsNumeric cells
    · rfl
    · have := List.all_eq_true.mp hx c hcmem
      rw [cellNumeric, hpresent, hplain] at this
      exact absurd this (by decide)
  have hreadcell : (readColumn cells).get? i = some (Value.str c) := by
    rw [readColumn, List.get?_map, hcell, hnotnum]
    simp [readCell, hpresent]
  have hobj : colIsObject (readColumn cells) = true := by
    rw [colIsObject, List.any_eq_true]
    exact ⟨Value.str c, List.get?_mem hreadcell, rfl⟩
  constructor
  · rw [hdf]
    refine setCol_lengths _ _ _ L hbaseLen ?_
    rw [List.length_map, List.length_zipWith, hrevLen, hempLen, Nat.min_self]
  · refine ⟨cleanCol (readColumn cells), ?_, ?_⟩
    · rw [hdf, getCol_setCol_ne _ _ _ _ hnne, getCol_loadBase, hcol]
      simp [hmoney]
    · rw [cleanCol, if_pos hobj, List.get?_map, hreadcell]
      simp [coerceCell, fillZero, hstrip]

/-- Input whose REVENUES cell is a plain non-numeric string. -/
def rawUnparsable : RawTable :=
  [("NAME", ["A"]), ("STATE", ["MA"]), ("REVENUES", ["abc"]), ("EMPLOYEES", ["5"])]

/-- C1 witness: loading a row with REVENUES "abc" keeps the row and
stores revenue 0. -/
theorem c1_witness :
    (∀ p ∈ load_data rawUnparsable, p.2.length = 1) ∧
    ∃ col, getCol (load_data rawUnparsable) "REVENUES" = some col ∧
      col.get? 0 = some (Value.num 0) :=
  c1_unparsable_zero_filled_row_kept rawUnparsable (load_data rawUnparsable) 1 "REVENUES"
    ["abc"] 0 "abc" (by rfl) (by decide) (Or.inl rfl) (by decide) (by decide) (by decide)
    (by decide) (by decide)

/-- A cell that is neither a retained string nor NaN: the values a
NaN-free numeric column can hold. -/
def numish (v : Value) : Prop :=
  (∃ q : ℚ, v = Value.num q) ∨ v = Value.inf ∨ v = Value.neginf

theorem vge_refl (a : Value) (h : numish a) : vge a a = true := by
  rcases h with ⟨q, rfl⟩ | rfl | rfl <;> simp [vge]

theorem vge_of_not_vge (a b : Value) (ha : numish a) (hb : numish b)
    (h : ¬vge a b = true) : vge b a = true := by
  rcases ha with ⟨x, rfl⟩ | rfl | rfl <;> rcases hb with ⟨y, rfl⟩ | rfl | rfl <;>
    simp [vge] at h ⊢ <;> linarith

theorem vge_trans (a b c : Value) (ha : numish a) (hb : numish b) (hc : numish c)
    (h1 : vge a b = true) (h2 : vge b c = true) : vge a c = true := by
  rcases ha with ⟨x, rfl⟩ | rfl | rfl <;> rcases hb with ⟨y, rfl⟩ | rfl | rfl <;>
    rcases hc with ⟨z, rfl⟩ | rfl | rfl <;> simp [vge] at h1 h2 ⊢ <;> linarith

theorem vmax_numish (a b : Value) (ha : numish a) (hb : numish b) : numish (vmax a b) := by
  rw [vmax]; split
  · exact ha
  · exact hb

theorem vge_vmax_left (a b : Value) (ha : numish a) (hb : numish b) :
    vge (vmax a b) a = true := by
  rw [vmax]; split
  · exact vge_refl a ha
  · next h => exact vge_of_not_vge a b ha hb h

theorem vge_vmax_right (a b : Value) (ha : numish a) (hb : numish b) :
    vge (vmax a b) b = true := by
  rw [vmax]; split
  · next h => exact h
  · exact vge_refl b hb

theorem foldl_vmax_ge (vs : List Value) (a : Value) (ha : numish a)
    (hvs : ∀ v ∈ vs, numish v) :
    numish (vs.foldl vmax a) ∧ ∀ x ∈ a :: vs, vge (vs.foldl vmax a) x = true := by
  induction vs generalizing a with
  | nil => exact ⟨ha, by intro x hx; simp at hx; rw [hx]; exact vge_refl a ha⟩
  | cons b tl ih =>
    have hb : numish b := hvs b (List.mem_cons_self b tl)
    have htl : ∀ v ∈ tl, numish v := fun v hv => hvs v (List.mem_cons_of_mem b hv)
    have hab : numish (vmax a b) := vmax_numish a b ha hb
    obtain ⟨hnum, hge⟩ := ih (vmax a b) hab htl
    refine ⟨hnum, ?_⟩
    intro x hx
    rcases List.mem_cons.mp hx with rfl | hx2
    · exact vge_trans _ _ _ hnum hab ha
        (hge (vmax x b) (List.mem_cons_self _ _)) (vge_vmax_left x b ha hb)
    · rcases List.mem_cons.mp hx2 with rfl | hx3
      · exact vge_trans _ _ _ hnum hab hb
          (hge (vmax a x) (List.mem_cons_self _ _)) (vge_vmax_right a x ha hb)
      · exact hge x (List.mem_cons_of_mem _ hx3)

theorem numish_of_no_str (v : Value) (hstr : isStrCell v = false) (hnan : ¬v = Value.nan) :
    numish v := by
  cases v with
  | str s => simp [isStrCell] at hstr
  | num q => exact Or.inl ⟨q, rfl⟩
  | nan => exact absurd rfl hnan
  | inf => exact Or.inr (Or.inl rfl)
  | neginf => exact Or.inr (Or.inr rfl)

theorem pmax_dominates (col : List Value) (m : ℚ)
    (hstr : ∀ v ∈ col, isStrCell v = false)
    (hmax : pmax col = Value.num m) :
    ∀ v ∈ col, ¬v = Value.nan → vge (Value.num m) v = true := by
  intro v hv hnan
  have hvf : v ∈ col.filter (fun v => !(v = Value.nan)) := by
    rw [List.mem_filter]
    exact ⟨hv, by simp [hnan]⟩
  rw [pmax] at hmax
  rcases hf : col.filter (fun v => !(v = Value.nan)) with _ | ⟨w, ws⟩
  · rw [hf] at hvf; cases hvf
  · rw [hf] at hmax hvf
    have hnumish : ∀ x ∈ w :: ws, numish x := by
      intro x hx
      have hxcol : x ∈ col := List.mem_of_mem_filter (hf ▸ hx)
      have hxnan : ¬x = Value.nan := by
        have := List.of_mem_filter (p := fun v => !(v = Value.nan)) (hf ▸ hx)
        simpa using this
      exact numish_of_no_str x (hstr x hxcol) hxnan
    obtain ⟨_, hge⟩ := foldl_vmax_ge ws w (hnumish w (List.mem_cons_self _ _))
      (fun x hx => hnumish x (List.mem_cons_of_mem _ hx))
    have hthis := hge v hvf
    have hfold : List.foldl vmax w ws = Value.num m := hmax
    rw [hfold] at hthis
    exact hthis

theorem zip_mask_all_true (l : List Value) (m : List Bool)
    (hlen : m.length = l.length) (hm : ∀ b ∈ m, b = true) :
    ((l.zip m).filter (fun p => p.2)).map (fun p => p.1) = l := by
  induction l generalizing m with
  | nil => simp
  | cons a tl ih =>
    cases m with
    | nil => cases hlen
    | cons b bs =>
      have hb : b = true := hm b (List.mem_cons_self _ _)
      subst hb
      have h2 := ih bs (by simpa using hlen) (fun x hx => hm x (List.mem_cons_of_mem _ hx))
      simpa using h2

theorem zip_mask_all_false (l : List Value) (m : List Bool)
    (hm : ∀ b ∈ m, b = false) :
    ((l.zip m).filter (fun p => p.2)).map (fun p => p.1) = [] := by
  induction l generalizing m with
  | nil => simp
  | cons a tl ih =>
    cases m with
    | nil => simp
    | cons b bs =>
      have hb : b = false := hm b (List.mem_cons_self _ _)
      subst hb
      have h2 := ih bs (fun x hx => hm x (List.mem_cons_of_mem _ hx))
      simpa using h2

/-- Input with a negative employee count. -/
def rawNegEmp : RawTable :=
  [("NAME", ["A"]), ("STATE", ["MA"]), ("REVENUES", ["10"]), ("EMPLOYEES", ["-1"])]

/-- C7 counterexample: a loadable dataset with a negative employee count
is not returned unchanged by the `employees >= 0` filter, refuting the
identity for every loaded dataset. -/
theorem c7_identity_fails_cex :
    filterGe (load_data rawNegEmp) "EMPLOYEES" (Value.num 0)
      ≠ some (load_data rawNegEmp) := by decide

/-- C7 amended: over datasets whose EMPLOYEES values are all nonnegative
numbers (which loading does not guarantee: a negative or missing source
value survives), the mask step of `df[df[metric] >= threshold]` with
threshold 0 keeps every row of every column; and for any metric column
free of retained strings, a threshold strictly above its maximum
observed value empties every column. -/
theorem c7_filter_threshold_amended (df : DataTable) :
    (∀ col, getCol df "EMPLOYEES" = some col →
      (∀ v ∈ col, ∃ q : ℚ, v = Value.num q ∧ 0 ≤ q) →
      (∀ p ∈ df, p.2.length = col.length) →
      filterGe df "EMPLOYEES" (Value.num 0) = some df) ∧
    (∀ metric t m col, getCol df metric = some col →
      (∀ v ∈ col, isStrCell v = false) →
      pmax col = Value.num m → m < t →
      filterGe df metric (Value.num t) = some (df.map (fun c => (c.1, ([] : List Value))))) := by
  constructor
  · intro col hcol hpos hlen
    rw [filterGe, hcol]
    simp only [Option.map_some']
    refine congrArg some ?_
    have hmlen : (maskGe col (Value.num 0)).length = col.length := by
      rw [maskGe, List.length_map]
    have hmtrue : ∀ b ∈ maskGe col (Value.num 0), b = true := by
      intro b hb
      rw [maskGe] at hb
      obtain ⟨v, hv, hbv⟩ := List.mem_map.mp hb
      obtain ⟨q, rfl, hq⟩ := hpos v hv
      rw [← hbv]
      simp [vge, hq]
    have hmap : applyMask df (maskGe col (Value.num 0)) = df.map id := by
      rw [applyMask]
      refine List.map_congr_left ?_
      intro p hp
      have h2 := zip_mask_all_true p.2 (maskGe col (Value.num 0))
        (by rw [hmlen, hlen p hp]) hmtrue
      exact (congrArg (fun l => (p.1, l)) h2).trans Prod.mk.eta
    rw [hmap, List.map_id]
  · intro metric t m col hcol hstr hmax hmt
    rw [filterGe, hcol]
    simp only [Option.map_some']
    refine congrArg some ?_
    rw [applyMask]
    have hmfalse : ∀ b ∈ maskGe col (Value.num t), b = false := by
      intro b hb
      rw [maskGe] at hb
      obtain ⟨v, hv, hbv⟩ := List.mem_map.mp hb
      rw [← hbv]
      by_cases hnan : v = Value.nan
      · rw [hnan]; rfl
      · have hdom := pmax_dominates col m hstr hmax v hv hnan
        have hnum : numish v := numish_of_no_str v (hstr v hv) hnan
        rcases hnum with ⟨q, rfl⟩ | rfl | rfl
        · have hqm : q ≤ m := by simpa [vge] using hdom
          simp [vge]
          linarith
        · simp [vge] at hdom
        · simp [vge]
    refine List.map_congr_left ?_
    intro p hp
    exact congrArg (fun l => (p.1, l))
      (zip_mask_all_false p.2 (maskGe col (Value.num t)) hmfalse)

/-- Concrete dataset for the C7 witness. -/
def dfPos : DataTable :=
  [("NAME", [Value.str "A", Value.str "B"]), ("EMPLOYEES", [Value.num 5, Value.num 3])]

/-- C7 witness: on a dataset with nonnegative employee counts the
zero-threshold filter is the identity, and a threshold above the maximum
empties the result. -/
theorem c7_witness :
    filterGe dfPos "EMPLOYEES" (Value.num 0) = some dfPos ∧
    filterGe dfPos "EMPLOYEES" (Value.num 6)
      = some (dfPos.map (fun c => (c.1, ([] : List Value)))) := by
  constructor
  · refine (c7_filter_threshold_amended dfPos).1 [Value.num 5, Value.num 3] (by decide)
      ?_ (by decide)
    intro v hv
    rcases List.mem_cons.mp hv with rfl | hv2
    · exact ⟨5, rfl, by norm_num⟩
    · rcases List.mem_cons.mp hv2 with rfl | hv3
      · exact ⟨3, rfl, by norm_num⟩
      · cases hv3
  · exact (c7_filter_threshold_amended dfPos).2 "EMPLOYEES" 6 5 [Value.num 5, Value.num 3]
      (by decide) (by decide) (by decide) (by norm_num)

theorem vgt_asymm (a b : Value) (h : vgt a b = true) : vgt b a = false := by
  cases a <;> cases b <;> simp [vgt] at h ⊢ <;> linarith

theorem insertDesc_length (x : ℕ × Value) (l : List (ℕ × Value)) :
    (insertDesc x l).length = l.length + 1 := by
  induction l with
  | nil => rfl
  | cons h tl ih =>
    rw [insertDesc]
    split
    · simp only [List.length_cons, ih]
    · simp only [List.length_cons]

theorem sortDesc_cons (x : ℕ × Value) (l : List (ℕ × Value)) :
    sortDesc (x :: l) = insertDesc x (sortDesc l) := rfl

theorem sortDesc_length (l : List (ℕ × Value)) : (sortDesc l).length = l.length := by
  induction l with
  | nil => rfl
  | cons x tl ih =>
    rw [sortDesc_cons, insertDesc_length, ih, List.length_cons]

theorem mem_insertDesc (y x : ℕ × Value) (m : List (ℕ × Value)) :
    y ∈ insertDesc x m ↔ y = x ∨ y ∈ m := by
  induction m with
  | nil => simp [insertDesc]
  | cons h tl ih =>
    rw [insertDesc]
    split
    · rw [List.mem_cons, ih, List.mem_cons]
      tauto
    · rw [List.mem_cons, List.mem_cons]

theorem mem_sortDesc (y : ℕ × Value) (l : List (ℕ × Value)) :
    y ∈ sortDesc l ↔ y ∈ l := by
  induction l with
  | nil => simp [sortDesc]
  | cons x tl ih =>
    rw [sortDesc_cons, mem_insertDesc, ih, List.mem_cons]

/-- Descending sortedness by metric value: no later row has a strictly
greater key than an earlier one. -/
def SortedD (l : List (ℕ × Value)) : Prop :=
  List.Chain' (fun a b => vgt b.2 a.2 = false) l

theorem insertDesc_sorted (x : ℕ × Value) (l : List (ℕ × Value)) (h : SortedD l) :
    SortedD (insertDesc x l) := by
  induction l with
  | nil => simp [insertDesc, SortedD]
  | cons b tl ih =>
    rw [insertDesc]
    split
    · next hgt =>
      have htl : SortedD tl := (List.chain'_cons'.mp h).2
      have hins : SortedD (insertDesc x tl) := ih htl
      rw [SortedD, List.chain'_cons']
      refine ⟨?_, hins⟩
      intro y hy
      cases tl with
      | nil =>
        simp [insertDesc] at hy
        rw [← hy]
        exact vgt_asymm _ _ hgt
      | cons c tl2 =>
        rw [insertDesc] at hy
        by_cases h2 : vgt c.2 x.2 = true
        · rw [if_pos h2] at hy
          simp at hy
          rw [← hy]
          exact (List.chain'_cons.mp h).1
        · rw [if_neg h2] at hy
          simp at hy
          rw [← hy]
          exact vgt_asymm _ _ hgt
    · next hgt =>
      rw [SortedD, List.chain'_cons]
      exact ⟨by simpa using hgt, h⟩

theorem sortDesc_sorted (l : List (ℕ × Value)) : SortedD (sortDesc l) := by
  induction l with
  | nil => exact List.chain'_nil
  | cons x tl ih =>
    rw [sortDesc_cons]
    exact insertDesc_sorted x _ ih

theorem sortDesc_of_sorted (l : List (ℕ × Value)) (h : SortedD l) : sortDesc l = l := by
  induction l with
  | nil => rfl
  | cons x tl ih =>
    have htl : SortedD tl := (List.chain'_cons'.mp h).2
    rw [sortDesc_cons, ih htl]
    cases tl with
    | nil => rfl
    | cons b tl2 =>
      have hedge : vgt b.2 x.2 = false := (List.chain'_cons.mp h).1
      rw [insertDesc]
      simp [hedge]

theorem vge_nan_left (t : Value) : vge Value.nan t = false := by cases t <;> rfl

/-- C8: top-N selection over the sorted, filtered result set never
errors for large N: with N at least the result size the whole sorted
set is returned, and in general the returned length is N clamped to
the result size. -/
theorem c8_topn_clamped (col : List Value) (t : Value) (n : ℕ) :
    ((filtered_insights col t).length ≤ n →
      top_companies col t n = filtered_insights col t) ∧
    (top_companies col t n).length = min n (filtered_insights col t).length := by
  have hfil : (filtered_insights col t).filter (fun p => !(p.2 = Value.nan))
      = filtered_insights col t := by
    rw [List.filter_eq_self]
    intro p hp
    rw [filtered_insights] at hp
    have hp2 : p ∈ filteredIdx col t := (mem_sortDesc p _).mp hp
    have hge := List.of_mem_filter hp2
    by_cases hnan : p.2 = Value.nan
    · rw [hnan, vge_nan_left] at hge; cases hge
    · simp [hnan]
  have hsorted : sortDesc (filtered_insights col t) = filtered_insights col t :=
    sortDesc_of_sorted _ (sortDesc_sorted _)
  constructor
  · intro hn
    rw [top_companies, nlargestRows, hfil, hsorted]
    exact List.take_of_length_le hn
  · rw [top_companies, nlargestRows, hfil, hsorted, List.length_take]

/-- C8 witness: with two rows passing the filter and N = 10, the whole
sorted result is returned and its length is the clamped value 2. -/
theorem c8_witness :
    (filtered_insights [Value.num 5, Value.num 9] (Value.num 3)).length ≤ 10 ∧
    top_companies [Value.num 5, Value.num 9] (Value.num 3) 10
      = filtered_insights [Value.num 5, Value.num 9] (Value.num 3) ∧
    (top_companies [Value.num 5, Value.num 9] (Value.num 3) 10).length
      = min 10 (filtered_insights [Value.num 5, Value.num 9] (Value.num 3)).length :=
  ⟨by decide, (c8_topn_clamped [Value.num 5, Value.num 9] (Value.num 3) 10).1 (by decide),
    (c8_topn_clamped [Value.num 5, Value.num 9] (Value.num 3) 10).2⟩

/-- Numeric payload of a cell (zero for non-numbers). -/
def numPayload : Value → ℚ
  | .num q => q
  | _ => 0

theorem foldl_skipAdd_num (l : List Value) (a : ℚ)
    (h : ∀ v ∈ l, ∃ q : ℚ, v = Value.num q) :
    l.foldl skipAdd (Value.num a) = Value.num (a + (l.map numPayload).sum) := by
  induction l generalizing a with
  | nil => simp
  | cons v tl ih =>
    obtain ⟨q, rfl⟩ := h v (List.mem_cons_self _ _)
    have htl := fun x hx => h x (List.mem_cons_of_mem _ hx)
    rw [List.foldl_cons]
    rw [show skipAdd (Value.num a) (Value.num q) = Value.num (a + q) from by
      simp [skipAdd, vadd]]
    rw [ih (a + q) htl, List.map_cons, List.sum_cons,
      show numPayload (Value.num q) = q from rfl]
    exact congrArg Value.num (by ring)

theorem psum_of_nums (l : List Value) (h : ∀ v ∈ l, ∃ q : ℚ, v = Value.num q) :
    psum l = Value.num ((l.map numPayload).sum) := by
  rw [psum, foldl_skipAdd_num l 0 h, zero_add]

/-- Per-row accumulation of the three metric sums. -/
def rowAdd2 (t : Value × Value × Value) (r : Value × Value × Value × Value) :
    Value × Value × Value :=
  (skipAdd t.1 r.2.1, skipAdd t.2.1 r.2.2.1, skipAdd t.2.2 r.2.2.2)

theorem aggLookup_cons (k0 : Value) (x : Value × Value × Value)
    (rest : List (Value × Value × Value × Value)) (k : Value) :
    aggLookup ((k0, x) :: rest) k = if k0 = k then some x else aggLookup rest k := by
  by_cases hk : k0 = k <;> simp [aggLookup, List.find?, hk]

/-- Accumulate one row into an optional aggregate entry: a fresh entry
starts from zero sums, as `upsert` creates it. -/
def optAdd (o : Option (Value × Value × Value)) (r : Value × Value × Value × Value) :
    Option (Value × Value × Value) :=
  some (rowAdd2 (o.getD (Value.num 0, Value.num 0, Value.num 0)) r)

theorem aggLookup_upsert_eq (acc : List (Value × Value × Value × Value)) (k r p e : Value) :
    aggLookup (upsert acc k r p e) k = optAdd (aggLookup acc k) (k, r, p, e) := by
  induction acc with
  | nil => simp [upsert, aggLookup, List.find?, optAdd, rowAdd2]
  | cons c rest ih =>
    obtain ⟨k0, sr, sp, se⟩ := c
    rw [upsert]
    by_cases hk : k0 = k
    · rw [if_pos hk, aggLookup_cons, if_pos hk, aggLookup_cons, if_pos hk]
      rfl
    · rw [if_neg hk, aggLookup_cons, if_neg hk, aggLookup_cons, if_neg hk]
      exact ih

theorem aggLookup_upsert_ne (acc : List (Value × Value × Value × Value))
    (k r p e k2 : Value) (h : ¬k2 = k) :
    aggLookup (upsert acc k r p e) k2 = aggLookup acc k2 := by
  have hk2 : ¬k = k2 := fun hx => h hx.symm
  induction acc with
  | nil => simp [upsert, aggLookup, List.find?, hk2]
  | cons c rest ih =>
    obtain ⟨k0, sr, sp, se⟩ := c
    rw [upsert]
    by_cases hk : k0 = k
    · have hk02 : ¬k0 = k2 := by rw [hk]; exact hk2
      rw [if_pos hk, aggLookup_cons, if_neg hk02, aggLookup_cons, if_neg hk02]
    · rw [if_neg hk, aggLookup_cons, aggLookup_cons]
      by_cases hk02 : k0 = k2
      · rw [if_pos hk02, if_pos hk02]
      · rw [if_neg hk02, if_neg hk02]
        exact ih

theorem foldl_groupStep_lookup (rows : List (Value × Value × Value × Value)) (k : Value)
    (hk : ¬k = Value.nan) :
    ∀ acc, aggLookup (rows.foldl groupStep acc) k =
      (rows.filter (fun r => decide (r.1 = k))).foldl optAdd (aggLookup acc k) := by
  induction rows with
  | nil => intro acc; rfl
  | cons r rest ih =>
    intro acc
    rw [List.foldl_cons, List.filter_cons]
    by_cases h1 : r.1 = k
    · have hrnan : ¬r.1 = Value.nan := by rw [h1]; exact hk
      have hstep : groupStep acc r = upsert acc k r.2.1 r.2.2.1 r.2.2.2 := by
        rw [groupStep, if_neg hrnan, h1]
      rw [hstep, ih (upsert acc k r.2.1 r.2.2.1 r.2.2.2)]
      rw [if_pos (show decide (r.1 = k) = true by simp [h1])]
      rw [List.foldl_cons]
      rw [aggLookup_upsert_eq acc k r.2.1 r.2.2.1 r.2.2.2]
      rw [show ((k, r.2.1, r.2.2.1, r.2.2.2) : Value × Value × Value × Value)
          = (r.1, r.2.1, r.2.2.1, r.2.2.2) from by rw [h1]]
    · rw [if_neg (by simp [h1])]
      by_cases h2 : r.1 = Value.nan
      · rw [show groupStep acc r = acc from by rw [groupStep, if_pos h2]]
        exact ih acc
      · rw [show groupStep acc r = upsert acc r.1 r.2.1 r.2.2.1 r.2.2.2 from by
          rw [groupStep, if_neg h2]]
        rw [ih (upsert acc r.1 r.2.1 r.2.2.1 r.2.2.2)]
        rw [aggLookup_upsert_ne acc r.1 r.2.1 r.2.2.1 r.2.2.2 k (fun hx => h1 hx.symm)]

theorem foldl_optAdd_some (rs : List (Value × Value × Value × Value))
    (t : Value × Value × Value) :
    rs.foldl optAdd (some t) = some (rs.foldl rowAdd2 t) := by
  induction rs generalizing t with
  | nil => rfl
  | cons r rest ih =>
    rw [List.foldl_cons, List.foldl_cons]
    exact ih (rowAdd2 t r)

theorem foldl_rowAdd2_components (rs : List (Value × Value × Value × Value))
    (t : Value × Value × Value) :
    rs.foldl rowAdd2 t =
      ((rs.map (fun r => r.2.1)).foldl skipAdd t.1,
       (rs.map (fun r => r.2.2.1)).foldl skipAdd t.2.1,
       (rs.map (fun r => r.2.2.2)).foldl skipAdd t.2.2) := by
  induction rs generalizing t with
  | nil =>
    obtain ⟨a, b, c⟩ := t
    rfl
  | cons r rest ih =>
    rw [List.foldl_cons, List.map_cons, List.map_cons, List.map_cons,
      List.foldl_cons, List.foldl_cons, List.foldl_cons]
    exact ih (rowAdd2 t r)

theorem zip4_proj (k : Value) (st : List Value) :
    ∀ rv pf em : List Value, rv.length = st.length → pf.length = st.length →
      em.length = st.length →
    ((zip4 st rv pf em).filter (fun r => decide (r.1 = k))).map (fun r => r.2.1)
        = selectVals st rv k ∧
    ((zip4 st rv pf em).filter (fun r => decide (r.1 = k))).map (fun r => r.2.2.1)
        = selectVals st pf k ∧
    ((zip4 st rv pf em).filter (fun r => decide (r.1 = k))).map (fun r => r.2.2.2)
        = selectVals st em k := by
  induction st with
  | nil =>
    intro rv pf em h1 h2 h3
    rw [List.length_nil, List.length_eq_zero] at h1 h2 h3
    subst h1; subst h2; subst h3
    exact ⟨rfl, rfl, rfl⟩
  | cons s stl ih =>
    intro rv pf em h1 h2 h3
    cases rv with
    | nil => cases h1
    | cons r rtl =>
      cases pf with
      | nil => cases h2
      | cons p ptl =>
        cases em with
        | nil => cases h3
        | cons e etl =>
          have h1t : rtl.length = stl.length := by simpa using h1
          have h2t : ptl.length = stl.length := by simpa using h2
          have h3t : etl.length = stl.length := by simpa using h3
          obtain ⟨ihr, ihp, ihe⟩ := ih rtl ptl etl h1t h2t h3t
          rw [zip4]
          by_cases hs : s = k
          · refine ⟨?_, ?_, ?_⟩ <;>
              simp only [List.filter_cons, selectVals, List.zip_cons_cons,
                decide_eq_true_eq, if_pos hs, List.map_cons]
            · exact congrArg (List.cons r) ihr
            · exact congrArg (List.cons p) ihp
            · exact congrArg (List.cons e) ihe
          · refine ⟨?_, ?_, ?_⟩ <;>
              simp only [List.filter_cons, selectVals, List.zip_cons_cons,
                decide_eq_true_eq, if_neg hs]
            · exact ihr
            · exact ihp
            · exact ihe

theorem zip4_mem_key (k : Value) (st : List Value) :
    ∀ rv pf em : List Value, rv.length = st.length → pf.length = st.length →
      em.length = st.length → k ∈ st →
      ∃ r ∈ zip4 st rv pf em, r.1 = k := by
  induction st with
  | nil =>
    intro rv pf em h1 h2 h3 hk
    cases hk
  | cons s stl ih =>
    intro rv pf em h1 h2 h3 hk
    cases rv with
    | nil => cases h1
    | cons r rtl =>
      cases pf with
      | nil => cases h2
      | cons p ptl =>
        cases em with
        | nil => cases h3
        | cons e etl =>
          rw [zip4]
          rcases List.mem_cons.mp hk with rfl | hk2
          · exact ⟨(k, r, p, e), List.mem_cons_self _ _, rfl⟩
          · obtain ⟨row, hrow, hrk⟩ := ih rtl ptl etl (by simpa using h1)
              (by simpa using h2) (by simpa using h3) hk2
            exact ⟨row, List.mem_cons_of_mem _ hrow, hrk⟩

/-- C5: for every state value present in the dataset, the group-by
aggregate row of that state holds exactly the NaN-skipping column sums
over the records whose state equals it, for revenue, profit and
employees alike; on all-numeric columns this is the exact rational sum,
with no truncation or capping. -/
theorem c5_state_aggregates_exact_sums (df : DataTable)
    (st rv pf em : List Value) (s : String)
    (hst : getCol df "STATE" = some st) (hrv : getCol df "REVENUES" = some rv)
    (hpf : getCol df "PROFIT" = some pf) (hem : getCol df "EMPLOYEES" = some em)
    (h1 : rv.length = st.length) (h2 : pf.length = st.length) (h3 : em.length = st.length)
    (hks : Value.str s ∈ st) :
    (∃ agg, state_aggregates df = some agg ∧
      aggLookup agg (Value.str s) =
        some (psum (selectVals st rv (Value.str s)), psum (selectVals st pf (Value.str s)),
          psum (selectVals st em (Value.str s)))) ∧
    ((∀ v ∈ rv, ∃ q : ℚ, v = Value.num q) →
      psum (selectVals st rv (Value.str s)) =
        Value.num (((selectVals st rv (Value.str s)).map numPayload).sum)) := by
  constructor
  · have hagg : state_aggregates df = some ((zip4 st rv pf em).foldl groupStep []) := by
      rw [state_aggregates, hst, hrv, hpf, hem]
    refine ⟨(zip4 st rv pf em).foldl groupStep [], hagg, ?_⟩
    have hk : ¬(Value.str s) = Value.nan := fun hx => Value.noConfusion hx
    rw [foldl_groupStep_lookup (zip4 st rv pf em) (Value.str s) hk []]
    rw [show aggLookup [] (Value.str s) = none from rfl]
    obtain ⟨row, hrow, hrk⟩ := zip4_mem_key (Value.str s) st rv pf em h1 h2 h3 hks
    have hmemf : row ∈ (zip4 st rv pf em).filter (fun r => decide (r.1 = Value.str s)) :=
      List.mem_filter.mpr ⟨hrow, by simp [hrk]⟩
    rcases hf : (zip4 st rv pf em).filter (fun r => decide (r.1 = Value.str s)) with _ | ⟨r0, rs⟩
    · rw [hf] at hmemf; cases hmemf
    · rw [hf, List.foldl_cons]
      rw [show optAdd none r0
          = some (rowAdd2 (Value.num 0, Value.num 0, Value.num 0) r0) from rfl]
      rw [foldl_optAdd_some, ← List.foldl_cons, ← hf]
      rw [foldl_rowAdd2_components]
      obtain ⟨hpr, hpp, hpe⟩ := zip4_proj (Value.str s) st rv pf em h1 h2 h3
      rw [hpr, hpp, hpe]
      rfl
  · intro hnums
    refine psum_of_nums _ ?_
    intro v hv
    rw [selectVals] at hv
    obtain ⟨pq, hpq, hpqv⟩ := List.mem_map.mp hv
    have hzip := List.mem_of_mem_filter hpq
    have hv2 := (List.of_mem_zip hzip).2
    rw [← hpqv]
    exact hnums pq.2 hv2

/-- State column of the C5 example dataset. -/
def stCA : List Value := [Value.str "CA", Value.str "NY", Value.str "CA", Value.str "CA"]

/-- Revenue column of the C5 example dataset. -/
def rvCA : List Value := [Value.num 100, Value.num 7, Value.num 200, Value.num 300]

/-- Profit column of the C5 example dataset. -/
def pfCA : List Value := [Value.num 1, Value.num 2, Value.num 3, Value.num 4]

/-- Employee column of the C5 example dataset. -/
def emCA : List Value := [Value.num 10, Value.num 20, Value.num 30, Value.num 40]

/-- Dataset of three California rows (revenues 100, 200, 300) and one
New York row. -/
def dfCA : DataTable :=
  [("STATE", stCA), ("REVENUES", rvCA), ("PROFIT", pfCA), ("EMPLOYEES", emCA)]

/-- C5 witness: the CA aggregate of the example dataset sums exactly the
three California rows; the revenue sum is exactly 600. -/
theorem c5_witness :
    (∃ agg, state_aggregates dfCA = some agg ∧
      aggLookup agg (Value.str "CA") =
        some (psum (selectVals stCA rvCA (Value.str "CA")),
          psum (selectVals stCA pfCA (Value.str "CA")),
          psum (selectVals stCA emCA (Value.str "CA")))) ∧
    psum (selectVals stCA rvCA (Value.str "CA")) = Value.num 600 :=
  ⟨(c5_state_aggregates_exact_sums dfCA stCA rvCA pfCA emCA "CA" (by decide) (by decide)
      (by decide) (by decide) (by decide) (by decide) (by decide) (by decide)).1,
    by decide⟩

theorem charDigit_digitChar (d : ℕ) (h : d < 10) : charDigit (digitChar d) = d := by
  interval_cases d <;> decide

theorem isDigit_digitChar (d : ℕ) (h : d < 10) : (digitChar d).isDigit = true := by
  interval_cases d <;> decide

theorem natDigitsLE_val : ∀ n : ℕ,
    (natDigitsLE n).foldr (fun c a => 10 * a + charDigit c) 0 = n := by
  intro n
  induction n using Nat.strong_induction_on with
  | _ n ih =>
    rw [natDigitsLE]
    by_cases h : n = 0
    · rw [dif_pos h, h]; rfl
    · rw [dif_neg h, List.foldr_cons]
      rw [ih (n / 10) (Nat.div_lt_self (Nat.pos_of_ne_zero h) (by norm_num))]
      rw [charDigit_digitChar (n % 10) (Nat.mod_lt n (by norm_num))]
      omega

theorem natDigitsLE_digits : ∀ n : ℕ, ∀ c ∈ natDigitsLE n, c.isDigit = true := by
  intro n
  induction n using Nat.strong_induction_on with
  | _ n ih =>
    intro c hc
    rw [natDigitsLE] at hc
    by_cases h : n = 0
    · rw [dif_pos h] at hc; cases hc
    · rw [dif_neg h] at hc
      rcases List.mem_cons.mp hc with rfl | hc2
      · exact isDigit_digitChar (n % 10) (Nat.mod_lt n (by norm_num))
      · exact ih (n / 10) (Nat.div_lt_self (Nat.pos_of_ne_zero h) (by norm_num)) c hc2

theorem digitsVal_from (l : List Char) :
    ∀ a : ℕ, l.foldl (fun a c => 10 * a + charDigit c) a
      = a * 10 ^ l.length + digitsVal l := by
  induction l with
  | nil => intro a; simp [digitsVal]
  | cons c t ih =>
    intro a
    rw [List.foldl_cons, ih (10 * a + charDigit c)]
    rw [show digitsVal (c :: t) = (charDigit c) * 10 ^ t.length + digitsVal t from by
      rw [digitsVal, List.foldl_cons, ih (10 * 0 + charDigit c)]; ring_nf]
    rw [List.length_cons]
    ring

theorem digitsVal_append (l1 l2 : List Char) :
    digitsVal (l1 ++ l2) = digitsVal l1 * 10 ^ l2.length + digitsVal l2 := by
  rw [digitsVal, List.foldl_append, ← digitsVal, digitsVal_from]

theorem digitsVal_replicate_zero (j : ℕ) (l : List Char) :
    digitsVal (List.replicate j '0' ++ l) = digitsVal l := by
  rw [digitsVal_append]
  rw [show digitsVal (List.replicate j '0') = 0 from by
    induction j with
    | zero => rfl
    | succ m ih =>
      rw [List.replicate_succ, digitsVal, List.foldl_cons]
      rw [show (10 * 0 + charDigit '0') = 0 from rfl]
      exact ih]
  ring

theorem digitsVal_natDigitsBE (n : ℕ) : digitsVal (natDigitsBE n) = n := by
  rw [natDigitsBE, digitsVal, List.foldl_reverse]
  exact natDigitsLE_val n

theorem natDigitsBE_digits (n : ℕ) : ∀ c ∈ natDigitsBE n, c.isDigit = true := by
  intro c hc
  rw [natDigitsBE, List.mem_reverse] at hc
  exact natDigitsLE_digits n c hc

theorem padZeros_digits (m : ℕ) (l : List Char) (h : ∀ c ∈ l, c.isDigit = true) :
    ∀ c ∈ padZeros m l, c.isDigit = true := by
  intro c hc
  rw [padZeros] at hc
  rcases List.mem_append.mp hc with h1 | h2
  · rw [List.eq_of_mem_replicate h1]; decide
  · exact h c h2

theorem padZeros_length (m : ℕ) (l : List Char) : m ≤ (padZeros m l).length := by
  rw [padZeros, List.length_append, List.length_replicate]
  omega

theorem padZeros_val (m : ℕ) (l : List Char) : digitsVal (padZeros m l) = digitsVal l :=
  digitsVal_replicate_zero _ l

theorem splitOnCh_not_mem (sep : Char) (l : List Char) (h : ∀ c ∈ l, ¬c = sep) :
    splitOnCh sep l = [l] := by
  induction l with
  | nil => rfl
  | cons c t ih =>
    rw [splitOnCh, if_neg (h c (List.mem_cons_self _ _))]
    rw [ih (fun x hx => h x (List.mem_cons_of_mem _ hx))]

theorem splitOnCh_append (sep : Char) (a b : List Char) (h : ∀ c ∈ a, ¬c = sep) :
    splitOnCh sep (a ++ sep :: b) = a :: splitOnCh sep b := by
  induction a with
  | nil => rw [List.nil_append, splitOnCh, if_pos rfl]
  | cons c t ih =>
    rw [List.cons_append, splitOnCh, if_neg (h c (List.mem_cons_self _ _))]
    rw [ih (fun x hx => h x (List.mem_cons_of_mem _ hx))]

theorem list_isEmpty_false {α : Type} (l : List α) (h : ¬l = []) : l.isEmpty = false := by
  cases l with
  | nil => exact absurd rfl h
  | cons a t => rfl

theorem readNatDigits_of_digits (cs : List Char) (hne : ¬cs = [])
    (hd : ∀ c ∈ cs, c.isDigit = true) :
    readNatDigits cs = some (digitsVal cs) := by
  rw [readNatDigits, list_isEmpty_false cs hne]
  rw [if_neg (by simp), if_pos (List.all_eq_true.mpr hd)]

theorem parseSignMant_cons (c0 : Char) (rest : List Char) :
    parseSignMant (c0 :: rest)
      = if c0 = '-' then (parseMantNat rest).map (fun p => (-(p.1 : ℤ), p.2))
        else if c0 = '+' then (parseMantNat rest).map (fun p => ((p.1 : ℤ), p.2))
        else (parseMantNat (c0 :: rest)).map (fun p => ((p.1 : ℤ), p.2)) := rfl

theorem isDigit_not_dot (c : Char) (h : c.isDigit = true) : ¬c = '.' := by
  intro he
  rw [he] at h
  exact absurd h (by decide)

theorem parseMantNat_decCore (ds : List Char) (k : ℕ)
    (hd : ∀ c ∈ ds, c.isDigit = true) (hlen : k + 1 ≤ ds.length) :
    parseMantNat (decCore ds k) = some (digitsVal ds, k) := by
  have hne : ¬ds = [] := by
    intro he
    rw [he] at hlen
    simp at hlen
  rw [decCore]
  by_cases hk : k = 0
  · rw [if_pos hk, parseMantNat,
      splitOnCh_not_mem '.' ds (fun c hc => isDigit_not_dot c (hd c hc))]
    show Option.map (fun v => (v, 0)) (readNatDigits ds) = some (digitsVal ds, k)
    rw [readNatDigits_of_digits ds hne hd, hk]
    rfl
  · rw [if_neg hk, parseMantNat]
    have htake : ∀ c ∈ ds.take (ds.length - k), c.isDigit = true :=
      fun c hc => hd c (List.mem_of_mem_take hc)
    have hdrop : ∀ c ∈ ds.drop (ds.length - k), c.isDigit = true :=
      fun c hc => hd c (List.mem_of_mem_drop hc)
    rw [splitOnCh_append '.' _ _ (fun c hc => isDigit_not_dot c (htake c hc)),
      splitOnCh_not_mem '.' _ (fun c hc => isDigit_not_dot c (hdrop c hc))]
    have htne : ¬ds.take (ds.length - k) = [] := by
      rw [List.take_eq_nil_iff]
      push_neg
      constructor
      · omega
      · exact hne
    show (if ((ds.take (ds.length - k)).isEmpty && (ds.drop (ds.length - k)).isEmpty) = true
        then none
        else if ((ds.take (ds.length - k)).all Char.isDigit
            && (ds.drop (ds.length - k)).all Char.isDigit) = true
          then some (digitsVal (ds.take (ds.length - k) ++ ds.drop (ds.length - k)),
            (ds.drop (ds.length - k)).length)
          else none)
      = some (digitsVal ds, k)
    rw [show ((ds.take (ds.length - k)).isEmpty && (ds.drop (ds.length - k)).isEmpty)
        = false from by rw [list_isEmpty_false _ htne, Bool.false_and]]
    rw [if_neg (by simp)]
    rw [if_pos (by
      rw [List.all_eq_true.mpr htake, List.all_eq_true.mpr hdrop]
      rfl)]
    rw [List.take_append_drop, List.length_drop]
    rw [show ds.length - (ds.length - k) = k from by omega]

theorem isDigit_not_sign (c : Char) (h : c.isDigit = true) : ¬c = '-' ∧ ¬c = '+' := by
  constructor <;> intro he <;> rw [he] at h <;> exact absurd h (by decide)

theorem parseSignMant_writeDec (n : ℤ) (k : ℕ)
    (hval : digitsVal (padZeros (k + 1) (natDigitsBE n.natAbs)) = n.natAbs) :
    parseSignMant (writeDec n k).data = some (n, k) := by
  have hd : ∀ c ∈ padZeros (k + 1) (natDigitsBE n.natAbs), c.isDigit = true :=
    padZeros_digits _ _ (natDigitsBE_digits n.natAbs)
  have hlen : k + 1 ≤ (padZeros (k + 1) (natDigitsBE n.natAbs)).length :=
    padZeros_length _ _
  have hmant : parseMantNat (decCore (padZeros (k + 1) (natDigitsBE n.natAbs)) k)
      = some (n.natAbs, k) := by
    rw [parseMantNat_decCore _ _ hd hlen, hval]
  have hcore : ∀ c0 rest, decCore (padZeros (k + 1) (natDigitsBE n.natAbs)) k = c0 :: rest →
      c0.isDigit = true ∨ c0 = '.' := by
    intro c0 rest hc
    rw [decCore] at hc
    by_cases hk : k = 0
    · rw [if_pos hk] at hc
      exact Or.inl (hd c0 (hc ▸ List.mem_cons_self c0 rest))
    · rw [if_neg hk] at hc
      rcases he : (padZeros (k + 1) (natDigitsBE n.natAbs)).take
          ((padZeros (k + 1) (natDigitsBE n.natAbs)).length - k) with _ | ⟨d, dt⟩
      · rw [he, List.nil_append] at hc
        exact Or.inr (List.head_eq_of_cons_eq hc).symm
      · rw [he, List.cons_append] at hc
        have : d = c0 := List.head_eq_of_cons_eq hc
        rw [← this]
        exact Or.inl (hd d (List.mem_of_mem_take (he ▸ List.mem_cons_self d dt)))
  by_cases hn : n < 0
  · rw [show (writeDec n k).data
        = '-' :: decCore (padZeros (k + 1) (natDigitsBE n.natAbs)) k from by
      rw [writeDec, if_pos hn]]
    rw [parseSignMant_cons, if_pos rfl, hmant]
    rw [Option.map_some']
    rw [show -((n.natAbs : ℤ)) = n from by omega]
  · rw [show (writeDec n k).data
        = decCore (padZeros (k + 1) (natDigitsBE n.natAbs)) k from by
      rw [writeDec, if_neg hn]]
    rcases hc : decCore (padZeros (k + 1) (natDigitsBE n.natAbs)) k with _ | ⟨c0, rest⟩
    · exfalso
      have : k + 1 ≤ 0 := by
        rw [decCore] at hc
        by_cases hk : k = 0
        · rw [if_pos hk] at hc
          rw [hc] at hlen
          simpa using hlen
        · rw [if_neg hk] at hc
          exact absurd hc (by simp)
      omega
    · have hc0 := hcore c0 rest hc
      have hc0m : ¬c0 = '-' ∧ ¬c0 = '+' := by
        rcases hc0 with h1 | h1
        · exact isDigit_not_sign c0 h1
        · rw [h1]; exact ⟨by decide, by decide⟩
      rw [parseSignMant_cons, if_neg hc0m.1, if_neg hc0m.2, ← hc, hmant]
      rw [Option.map_some']
      rw [show ((n.natAbs : ℤ)) = n from by omega]

/-- A character the decimal writer can emit. -/
def goodChar (c : Char) : Bool := c.isDigit || decide (c = '-') || decide (c = '.')

theorem decCore_chars (ds : List Char) (k : ℕ) (hd : ∀ c ∈ ds, c.isDigit = true) :
    ∀ c ∈ decCore ds k, c.isDigit = true ∨ c = '.' := by
  intro c hc
  rw [decCore] at hc
  by_cases hk : k = 0
  · rw [if_pos hk] at hc
    exact Or.inl (hd c hc)
  · rw [if_neg hk] at hc
    rcases List.mem_append.mp hc with h1 | h2
    · exact Or.inl (hd c (List.mem_of_mem_take h1))
    · rcases List.mem_cons.mp h2 with rfl | h3
      · exact Or.inr rfl
      · exact Or.inl (hd c (List.mem_of_mem_drop h3))

theorem writeDec_chars (n : ℤ) (k : ℕ) : ∀ c ∈ (writeDec n k).data, goodChar c = true := by
  intro c hc
  have hd := padZeros_digits (k + 1) (natDigitsBE n.natAbs) (natDigitsBE_digits n.natAbs)
  rw [writeDec] at hc
  by_cases hn : n < 0
  · rw [if_pos hn] at hc
    rcases List.mem_cons.mp hc with rfl | h2
    · decide
    · rcases decCore_chars _ k hd c h2 with h3 | rfl
      · simp [goodChar, h3]
      · decide
  · rw [if_neg hn] at hc
    rcases decCore_chars _ k hd c hc with h3 | rfl
    · simp [goodChar, h3]
    · decide

theorem goodChar_not_e (c : Char) (h : goodChar c = true) : ¬c = 'E' ∧ ¬c = 'e' := by
  constructor <;> intro he <;> rw [he] at h <;> exact absurd h (by decide)

theorem mapE_id (l : List Char) (h : ∀ c ∈ l, ¬c = 'E') :
    l.map (fun c => if c = 'E' then 'e' else c) = l := by
  induction l with
  | nil => rfl
  | cons c t ih =>
    rw [List.map_cons, if_neg (h c (List.mem_cons_self _ _)),
      ih (fun x hx => h x (List.mem_cons_of_mem _ hx))]

theorem parseChars_single (cs m : List Char)
    (hsplit : splitOnCh 'e' (cs.map (fun c => if c = 'E' then 'e' else c)) = [m]) :
    parseChars cs = (parseSignMant m).map (fun p => (p.1 : ℚ) / 10 ^ p.2) := by
  simp only [parseChars, hsplit]

theorem parseChars_writeDec (n : ℤ) (k : ℕ) :
    parseChars (writeDec n k).data = some ((n : ℚ) / 10 ^ k) := by
  have hgood := writeDec_chars n k
  have hsplit : splitOnCh 'e'
      ((writeDec n k).data.map (fun c => if c = 'E' then 'e' else c))
      = [(writeDec n k).data] := by
    rw [mapE_id _ (fun c hc => (goodChar_not_e c (hgood c hc)).1)]
    exact splitOnCh_not_mem 'e' _ (fun c hc => (goodChar_not_e c (hgood c hc)).2)
  rw [parseChars_single _ _ hsplit]
  rw [parseSignMant_writeDec n k
    ((padZeros_val (k + 1) (natDigitsBE n.natAbs)).trans (digitsVal_natDigitsBE n.natAbs))]
  rw [Option.map_some']

theorem dvd_ten_pow_log2 (m : ℕ) (d : ℕ) (hd : 0 < d) (hdvd : d ∣ 10 ^ m) :
    d ∣ 10 ^ Nat.log2 d := by
  induction d using Nat.strong_induction_on with
  | _ d ih =>
    by_cases h2 : 2 ∣ d
    · obtain ⟨e, rfl⟩ := h2
      have he : 0 < e := by omega
      have hedvd : e ∣ 10 ^ m := dvd_trans (dvd_mul_left e 2) hdvd
      have hrec := ih e (by omega) he hedvd
      have hstep : 2 * e ∣ 10 ^ (Nat.log2 e + 1) :=
        dvd_trans (mul_dvd_mul_left 2 hrec) ⟨5, by ring⟩
      refine dvd_trans hstep (pow_dvd_pow 10 ?_)
      rw [Nat.log2_eq_log_two, Nat.log2_eq_log_two]
      rw [← Nat.pow_le_iff_le_log (by norm_num) (by omega)]
      rw [pow_succ, mul_comm]
      exact Nat.mul_le_mul_left 2 (Nat.pow_log_le_self 2 (by omega))
    · by_cases h5 : 5 ∣ d
      · obtain ⟨e, rfl⟩ := h5
        have he : 0 < e := by omega
        have hedvd : e ∣ 10 ^ m := dvd_trans (dvd_mul_left e 5) hdvd
        have hrec := ih e (by omega) he hedvd
        have hstep : 5 * e ∣ 10 ^ (Nat.log2 e + 1) :=
          dvd_trans (mul_dvd_mul_left 5 hrec) ⟨2, by ring⟩
        refine dvd_trans hstep (pow_dvd_pow 10 ?_)
        rw [Nat.log2_eq_log_two, Nat.log2_eq_log_two]
        rw [← Nat.pow_le_iff_le_log (by norm_num) (by omega)]
        rw [pow_succ, mul_comm]
        calc 2 * 2 ^ Nat.log 2 e ≤ 2 * e :=
              Nat.mul_le_mul_left 2 (Nat.pow_log_le_self 2 (by omega))
          _ ≤ 5 * e := by omega
      · have hc2 : Nat.Coprime 2 d := (Nat.Prime.coprime_iff_not_dvd Nat.prime_two).mpr h2
        have hc5 : Nat.Coprime 5 d := (Nat.Prime.coprime_iff_not_dvd Nat.prime_five).mpr h5
        have hc10 : Nat.Coprime 10 d := by
          rw [show (10 : ℕ) = 2 * 5 from by norm_num]
          exact Nat.Coprime.mul hc2 hc5
        have hd1 : d = 1 :=
          Nat.Coprime.eq_one_of_dvd (Nat.Coprime.pow_right m hc10.symm) hdvd
        rw [hd1]
        exact one_dvd _

theorem parseNumValue_of_parseNum (s : String) (q : ℚ) (h : parseNum s = some q) :
    parseNumValue s = some (Value.num q) := by
  simp only [parseNumValue, h]

theorem writeNum_roundtrip (q : ℚ) (j : ℕ) (hj : q.den ∣ 10 ^ j) :
    parseNum (writeNum q) = some q := by
  have hden : q.den ∣ 10 ^ Nat.log2 q.den :=
    dvd_ten_pow_log2 j q.den (Nat.pos_of_ne_zero q.den_nz) hj
  obtain ⟨c, hc⟩ := hden
  have hc0 : ¬c = 0 := by
    intro h0
    rw [h0, mul_zero] at hc
    exact absurd hc (by positivity)
  have hq10 : ((10 : ℚ)) ^ Nat.log2 q.den = (q.den : ℚ) * (c : ℚ) := by
    rw [show ((10 : ℚ)) ^ Nat.log2 q.den = ((10 ^ Nat.log2 q.den : ℕ) : ℚ) from by
      push_cast; ring, hc]
    push_cast
    ring
  have hdq : ((q.den : ℚ)) ≠ 0 := Nat.cast_ne_zero.mpr q.den_nz
  have h1 : ((q.num : ℚ)) = q * (q.den : ℚ) := by
    rw [← div_eq_iff hdq]
    exact Rat.num_div_den q
  have hM : q * (10 : ℚ) ^ Nat.log2 q.den = ((q.num * c : ℤ) : ℚ) := by
    rw [hq10, ← mul_assoc, ← h1]
    push_cast
    ring
  have hnum : (q * (10 : ℚ) ^ Nat.log2 q.den).num = q.num * c := by
    rw [hM, Rat.num_intCast]
  have hwd : writeNum q = writeDec (q.num * c) (Nat.log2 q.den) := by
    rw [writeNum, hnum]
  rw [show parseNum (writeNum q) = parseChars (writeNum q).data from rfl, hwd,
    parseChars_writeDec]
  rw [← hM]
  rw [mul_div_assoc, div_self (pow_ne_zero _ (by norm_num)), mul_one]

theorem den_div_pow_dvd (z : ℤ) (k : ℕ) : ((z : ℚ) / 10 ^ k).den ∣ 10 ^ k := by
  have h := Rat.den_dvd z ((10 : ℤ) ^ k)
  rw [Rat.divInt_eq_div] at h
  rw [show (((10 : ℤ) ^ k : ℤ) : ℚ) = (10 : ℚ) ^ k from by push_cast; ring] at h
  rw [show ((10 : ℤ) ^ k) = (((10 ^ k : ℕ) : ℤ)) from by push_cast; ring] at h
  exact Int.ofNat_dvd.mp h

theorem parseChars_div_form (cs : List Char) (q : ℚ) (h : parseChars cs = some q) :
    ∃ (z : ℤ) (j : ℕ), q = (z : ℚ) / 10 ^ j := by
  simp only [parseChars] at h
  rcases hs : splitOnCh 'e' (cs.map (fun c => if c = 'E' then 'e' else c)) with _ | ⟨m, rest⟩
  · rw [hs] at h; cases h
  · rcases rest with _ | ⟨ex, rest2⟩
    · rw [hs] at h
      replace h : Option.map (fun p => ((p.1 : ℚ) / 10 ^ p.2 : ℚ)) (parseSignMant m)
          = some q := h
      rcases hm : parseSignMant m with _ | p
      · rw [hm] at h; cases h
      · rw [hm, Option.map_some'] at h
        exact ⟨p.1, p.2, (Option.some.inj h).symm⟩
    · rcases rest2 with _ | ⟨x, rest3⟩
      · rw [hs] at h
        replace h : (match parseSignMant m, parseExpInt ex with
            | some p, some e => some ((p.1 : ℚ) / 10 ^ p.2 * (10 : ℚ) ^ e)
            | _, _ => none) = some q := h
        rcases hm : parseSignMant m with _ | p
        · rw [hm] at h; cases h
        · rcases he : parseExpInt ex with _ | e
          · rw [hm, he] at h; cases h
          · rw [hm, he] at h
            have hq : q = (p.1 : ℚ) / 10 ^ p.2 * (10 : ℚ) ^ e := (Option.some.inj h).symm
            rcases Int.eq_nat_or_neg e with ⟨t, rfl | rfl⟩
            · refine ⟨p.1 * 10 ^ t, p.2, ?_⟩
              rw [hq, zpow_natCast]
              push_cast
              rw [div_mul_eq_mul_div]
            · refine ⟨p.1, p.2 + t, ?_⟩
              rw [hq, zpow_neg, zpow_natCast]
              rw [← div_eq_mul_inv, div_div, ← pow_add]
      · rw [hs] at h; cases h

theorem parseNum_smooth (s : String) (q : ℚ) (h : parseNum s = some q) :
    ∃ j, q.den ∣ 10 ^ j := by
  obtain ⟨z, j, rfl⟩ := parseChars_div_form s.data q h
  exact ⟨j, den_div_pow_dvd z j⟩

theorem writeDec_ne_nil (n : ℤ) (k : ℕ) : ¬(writeDec n k).data = [] := by
  have hlen : k + 1 ≤ (padZeros (k + 1) (natDigitsBE n.natAbs)).length :=
    padZeros_length _ _
  have hds : ¬padZeros (k + 1) (natDigitsBE n.natAbs) = [] := by
    intro he
    rw [he] at hlen
    simp at hlen
  have hcore : ¬decCore (padZeros (k + 1) (natDigitsBE n.natAbs)) k = [] := by
    rw [decCore]
    by_cases hk : k = 0
    · rw [if_pos hk]; exact hds
    · rw [if_neg hk]
      intro he
      rcases List.append_eq_nil.mp he with ⟨_, h2⟩
      cases h2
  rw [writeDec]
  by_cases hn : n < 0
  · rw [if_pos hn]
    intro he
    cases he
  · rw [if_neg hn]
    exact hcore

theorem isNA_of_goodChars (s : String) (h : ∀ c ∈ s.data, goodChar c = true)
    (hne : ¬s.data = []) : isNA s = false := by
  cases hna : isNA s
  · rfl
  · exfalso
    rw [isNA] at hna
    obtain ⟨t, ht, hst⟩ := List.any_eq_true.mp hna
    have hs : s = t := of_decide_eq_true hst
    subst hs
    fin_cases ht
    · exact hne rfl
    all_goals exact absurd (List.all_eq_true.mpr h) (by decide)

theorem isNA_writeDec (n : ℤ) (k : ℕ) : isNA (writeDec n k) = false :=
  isNA_of_goodChars _ (writeDec_chars n k) (writeDec_ne_nil n k)

theorem isNA_writeNum (q : ℚ) : isNA (writeNum q) = false := by
  rw [writeNum]
  exact isNA_writeDec _ _

/-- A rational a numeric cell can hold: its denominator divides a power
of ten (every parsed decimal literal does, as does zero). -/
def DecSmooth (q : ℚ) : Prop := ∃ j : ℕ, q.den ∣ 10 ^ j

/-- Cell of a numeric-dtype column. -/
def GoodNumCell (v : Value) : Prop :=
  (∃ q : ℚ, v = Value.num q ∧ DecSmooth q) ∨ v = Value.nan ∨ v = Value.inf ∨ v = Value.neginf

/-- Cell of an object-dtype column. -/
def GoodObjCell (v : Value) : Prop :=
  v = Value.nan ∨ ∃ s, v = Value.str s ∧ isNA s = false

/-- Shape invariant of every column a load can produce, except the
derived ratio column: a numeric column of ten-smooth rationals and
specials, or an object column retaining a witness non-numeric string. -/
def GoodCol (col : List Value) : Prop :=
  (∀ v ∈ col, GoodNumCell v) ∨
  ((∀ v ∈ col, GoodObjCell v) ∧
    ∃ s, Value.str s ∈ col ∧ parseNumValue s = none ∧ isNA s = false)

theorem parseNumValue_smooth (s : String) (v : Value) (h : parseNumValue s = some v) :
    GoodNumCell v := by
  rw [parseNumValue] at h
  rcases hp : parseNum s with _ | q
  · rw [hp] at h
    replace h : (if infWords.any (fun w => decide (lowerChars s = w)
          || decide (lowerChars s = '+' :: w)) = true then some Value.inf
        else if infWords.any (fun w => decide (lowerChars s = '-' :: w)) = true
          then some Value.neginf else none) = some v := h
    split at h
    · exact Or.inr (Or.inr (Or.inl (Option.some.inj h).symm))
    · split at h
      · exact Or.inr (Or.inr (Or.inr (Option.some.inj h).symm))
      · cases h
  · rw [hp] at h
    replace h : some (Value.num q) = some v := h
    obtain ⟨j, hj⟩ := parseNum_smooth s q hp
    exact Or.inl ⟨q, (Option.some.inj h).symm, j, hj⟩

theorem readCell_good_numeric (s : String) : GoodNumCell (readCell true s) := by
  rw [readCell]
  by_cases hna : isNA s = true
  · rw [if_pos hna]
    exact Or.inr (Or.inl rfl)
  · rw [if_neg hna, if_pos rfl]
    rcases hp : parseNumValue s with _ | v
    · exact Or.inr (Or.inl rfl)
    · exact parseNumValue_smooth s v hp

theorem readColumn_good (cells : List String) : GoodCol (readColumn cells) := by
  rw [readColumn]
  cases hcn : colIsNumeric cells
  · right
    constructor
    · intro v hv
      obtain ⟨s, hs, rfl⟩ := List.mem_map.mp hv
      rw [readCell]
      by_cases hna : isNA s = true
      · rw [if_pos hna]
        exact Or.inl rfl
      · rw [if_neg hna, if_neg (by simp)]
        exact Or.inr ⟨s, rfl, by simpa using hna⟩
    · have hex : ¬∀ x ∈ cells, cellNumeric x = true := by
        intro hall
        rw [colIsNumeric, List.all_eq_true.mpr hall] at hcn
        cases hcn
      push_neg at hex
      obtain ⟨s, hs, hcs⟩ := hex
      have hcs2 : isNA s = false ∧ (parseNumValue s).isSome = false := by
        rw [cellNumeric] at hcs
        constructor
        · cases h1 : isNA s
          · rfl
          · exact absurd (by rw [h1]; simp) hcs
        · cases h2 : (parseNumValue s).isSome
          · rfl
          · exact absurd (by rw [h2]; simp) hcs
      refine ⟨s, ?_, ?_, hcs2.1⟩
      · refine List.mem_map.mpr ⟨s, hs, ?_⟩
        rw [readCell, if_neg (by rw [hcs2.1]; simp), if_neg (by simp)]
      · rcases hp : parseNumValue s with _ | v
        · rfl
        · rw [hp] at hcs2
          exact absurd hcs2.2 (by simp)
  · left
    intro v hv
    obtain ⟨s, hs, rfl⟩ := List.mem_map.mp hv
    exact readCell_good_numeric s

theorem fillZero_good (v : Value) (h : GoodNumCell v) : GoodNumCell (fillZero v) := by
  rw [fillZero]
  split
  · exact Or.inl ⟨0, rfl, 0, by decide⟩
  · exact h

theorem cleanCol_readColumn_num (cells : List String) :
    ∀ v ∈ cleanCol (readColumn cells), GoodNumCell v := by
  rcases readColumn_good cells with hnum | ⟨hobj, s0, hs0, _, _⟩
  · have hno : colIsObject (readColumn cells) = false := by
      cases hx : colIsObject (readColumn cells)
      · rfl
      · exfalso
        obtain ⟨v, hv, hsv⟩ := List.any_eq_true.mp hx
        rcases hnum v hv with ⟨q, rfl, _⟩ | rfl | rfl | rfl <;> cases hsv
    rw [cleanCol, hno]
    simpa using hnum
  · have hyes : colIsObject (readColumn cells) = true :=
      List.any_eq_true.mpr ⟨Value.str s0, hs0, rfl⟩
    rw [cleanCol, hyes]
    rw [if_pos rfl]
    intro v hv
    obtain ⟨w, hw, rfl⟩ := List.mem_map.mp hv
    rcases hobj w hw with rfl | ⟨s, rfl, _⟩
    · exact fillZero_good _ (Or.inr (Or.inl rfl))
    · rw [coerceCell]
      rcases hp : parseNumValue (stripCommas s) with _ | v2
      · exact fillZero_good _ (Or.inr (Or.inl rfl))
      · exact fillZero_good _ (parseNumValue_smooth _ v2 hp)

theorem cleanCol_of_num (col : List Value) (h : ∀ v ∈ col, GoodNumCell v) :
    cleanCol col = col := by
  have hno : colIsObject col = false := by
    cases hx : colIsObject col
    · rfl
    · exfalso
      obtain ⟨v, hv, hsv⟩ := List.any_eq_true.mp hx
      rcases h v hv with ⟨q, rfl, _⟩ | rfl | rfl | rfl <;> cases hsv
  rw [cleanCol, hno]
  simp

theorem readColumn_write_good (col : List Value) (h : GoodCol col) :
    readColumn (col.map writeCell) = col := by
  rcases h with hnum | ⟨hobj, s0, hs0, hp0, hna0⟩
  · have hcellnum : ∀ s ∈ col.map writeCell, cellNumeric s = true := by
      intro s hs
      obtain ⟨v, hv, rfl⟩ := List.mem_map.mp hs
      rcases hnum v hv with ⟨q, rfl, j, hj⟩ | rfl | rfl | rfl
      · show cellNumeric (writeNum q) = true
        rw [cellNumeric, parseNumValue_of_parseNum _ q (writeNum_roundtrip q j hj)]
        simp
      · decide
      · decide
      · decide
    have hcn : colIsNumeric (col.map writeCell) = true := List.all_eq_true.mpr hcellnum
    rw [readColumn, hcn, List.map_map]
    refine (List.map_congr_left ?_).trans (List.map_id col)
    intro v hv
    rcases hnum v hv with ⟨q, rfl, j, hj⟩ | rfl | rfl | rfl
    · show readCell true (writeNum q) = Value.num q
      rw [readCell, if_neg (by rw [isNA_writeNum]; simp), if_pos rfl,
        parseNumValue_of_parseNum _ q (writeNum_roundtrip q j hj)]
      rfl
    · show readCell true "" = Value.nan
      decide
    · show readCell true "inf" = Value.inf
      decide
    · show readCell true "-inf" = Value.neginf
      decide
  · have hbad : cellNumeric s0 = false := by
      rw [cellNumeric, hna0, hp0]
      rfl
    have hmem : s0 ∈ col.map writeCell := List.mem_map.mpr ⟨Value.str s0, hs0, rfl⟩
    have hcn : colIsNumeric (col.map writeCell) = false := by
      cases hx : colIsNumeric (col.map writeCell)
      · rfl
      · rw [colIsNumeric] at hx
        exact absurd (List.all_eq_true.mp hx s0 hmem) (by rw [hbad]; simp)
    rw [readColumn, hcn, List.map_map]
    refine (List.map_congr_left ?_).trans (List.map_id col)
    intro v hv
    rcases hobj v hv with rfl | ⟨s, rfl, hna⟩
    · show readCell false "" = Value.nan
      decide
    · show readCell false s = Value.str s
      rw [readCell, if_neg (by rw [hna]; simp), if_neg (by simp)]

theorem dropWhile_cons_head_false (p : Char → Bool) (l : List Char) (c : Char) (t : List Char)
    (h : l.dropWhile p = c :: t) : p c = false := by
  induction l with
  | nil => cases h
  | cons a l2 ih =>
    rw [List.dropWhile_cons] at h
    by_cases hp : p a = true
    · rw [if_pos hp] at h
      exact ih h
    · rw [if_neg hp] at h
      have ha : a = c := List.head_eq_of_cons_eq h
      rw [← ha]
      simpa using hp

theorem strip_right_prefix (p : Char → Bool) (A : List Char) :
    ∃ t, (A.reverse.dropWhile p).reverse ++ t = A := by
  obtain ⟨t, ht⟩ := List.dropWhile_suffix (l := A.reverse) p
  refine ⟨t.reverse, ?_⟩
  have h2 := congrArg List.reverse ht
  rw [List.reverse_append, List.reverse_reverse] at h2
  exact h2

theorem stripStr_idem (s : String) : stripStr (stripStr s) = stripStr s := by
  rw [stripStr, stripStr]
  rw [show (⟨((s.data.dropWhile Char.isWhitespace).reverse.dropWhile
      Char.isWhitespace).reverse⟩ : String).data
      = ((s.data.dropWhile Char.isWhitespace).reverse.dropWhile
        Char.isWhitespace).reverse from rfl]
  have hstep1 : (((s.data.dropWhile Char.isWhitespace).reverse.dropWhile
      Char.isWhitespace).reverse).dropWhile Char.isWhitespace
      = ((s.data.dropWhile Char.isWhitespace).reverse.dropWhile Char.isWhitespace).reverse := by
    rcases hR : ((s.data.dropWhile Char.isWhitespace).reverse.dropWhile
        Char.isWhitespace).reverse with _ | ⟨c, t⟩
    · rfl
    · obtain ⟨t2, ht2⟩ := strip_right_prefix Char.isWhitespace
        (s.data.dropWhile Char.isWhitespace)
      rw [hR] at ht2
      have hw : Char.isWhitespace c = false :=
        dropWhile_cons_head_false _ s.data c (t ++ t2) (by rw [← ht2]; simp)
      rw [List.dropWhile_cons, if_neg (by simp [hw])]
  rw [hstep1, List.reverse_reverse, List.dropWhile_idempotent]

theorem getCol_map_if_ne (df : DataTable) (m n : String)
    (f : String × List Value → List Value) (h : ¬n = m) :
    getCol (df.map (fun c => if c.1 = m then (c.1, f c) else c)) n = getCol df n := by
  have hmn : ¬m = n := fun hx => h hx.symm
  induction df with
  | nil => rfl
  | cons c t ih =>
    obtain ⟨c1, c2⟩ := c
    by_cases hc : c1 = m
    · have hcn : ¬c1 = n := by rw [hc]; exact hmn
      simpa [getCol, List.find?, hc, hcn, hmn] using ih
    · by_cases hcn : c1 = n
      · simp [getCol, List.find?, hc, hcn, h, hmn]
      · simpa [getCol, List.find?, hc, hcn] using ih

theorem hasColD_map_if (df : DataTable) (m n : String)
    (f : String × List Value → List Value) :
    hasColD (df.map (fun c => if c.1 = m then (c.1, f c) else c)) n = hasColD df n := by
  induction df with
  | nil => rfl
  | cons c t ih =>
    obtain ⟨c1, c2⟩ := c
    by_cases hc : c1 = m <;> by_cases hcn : c1 = n <;>
      simp_all [hasColD, List.any_cons]

theorem hasColD_setCol_self (df : DataTable) (n : String) (col : List Value) :
    hasColD (setCol df n col) n = true := by
  rw [setCol]
  split
  · next h =>
    obtain ⟨c, hc, hcn⟩ := List.any_eq_true.mp h
    refine List.any_eq_true.mpr ⟨(n, col), ?_, by simp⟩
    refine List.mem_map.mpr ⟨c, hc, ?_⟩
    rw [if_pos (of_decide_eq_true hcn)]
  · refine List.any_eq_true.mpr ⟨(n, col), ?_, by simp⟩
    exact List.mem_append.mpr (Or.inr (List.mem_cons_self _ _))

theorem setCol_ne_nil (df : DataTable) (n : String) (col : List Value) :
    ¬setCol df n col = [] := by
  rw [setCol]
  split
  · next h =>
    intro he
    rw [List.map_eq_nil] at he
    rw [he] at h
    cases h
  · intro he
    rcases List.append_eq_nil.mp he with ⟨_, h2⟩
    cases h2

theorem mem_setCol (df : DataTable) (n : String) (col : List Value)
    (c : String × List Value) (hc : c ∈ setCol df n col) :
    (c ∈ df ∧ ¬c.1 = n) ∨ c = (n, col) := by
  rw [setCol] at hc
  split at hc
  · obtain ⟨q, hq, hqc⟩ := List.mem_map.mp hc
    by_cases h1 : q.1 = n
    · rw [if_pos h1] at hqc
      exact Or.inr hqc.symm
    · rw [if_neg h1] at hqc
      rw [← hqc]
      exact Or.inl ⟨hq, h1⟩
  · next h =>
    rcases List.mem_append.mp hc with h1 | h2
    · refine Or.inl ⟨h1, ?_⟩
      intro he
      have : hasColD df n = true := List.any_eq_true.mpr ⟨c, h1, by simp [he]⟩
      rw [this] at h
      exact h rfl
    · exact Or.inr (by simpa using h2)

theorem mem_loadBase (raw : RawTable) (c : String × List Value) (hc : c ∈ loadBase raw) :
    ∃ r ∈ raw, c = (if isMoneyCol (stripStr r.1) then
        (stripStr r.1, cleanCol (readColumn r.2))
      else (stripStr r.1, readColumn r.2)) := by
  rw [loadBase, cleanDF] at hc
  rw [List.map_map] at hc
  obtain ⟨r, hr, hrc⟩ := List.mem_map.mp hc
  refine ⟨r, hr, ?_⟩
  rw [← hrc]
  by_cases hm : isMoneyCol (stripStr r.1) = true
  · simp [hm]
  · simp [hm]

theorem requireCol_of_getCol (df : DataTable) (n : String) (c : List Value)
    (h : getCol df n = some c) : requireCol df n = Except.ok c := by
  rw [requireCol, h]

theorem loadBase_inv (raw : RawTable) (c : String × List Value) (hc : c ∈ loadBase raw) :
    stripStr c.1 = c.1 ∧ GoodCol c.2 ∧
      (isMoneyCol c.1 = true → ∀ v ∈ c.2, GoodNumCell v) := by
  obtain ⟨r, hr, hcr⟩ := mem_loadBase raw c hc
  by_cases hm : isMoneyCol (stripStr r.1) = true
  · rw [if_pos hm] at hcr
    subst hcr
    exact ⟨stripStr_idem r.1, Or.inl (cleanCol_readColumn_num r.2),
      fun _ => cleanCol_readColumn_num r.2⟩
  · rw [if_neg hm] at hcr
    subst hcr
    exact ⟨stripStr_idem r.1, readColumn_good r.2, fun hmm => absurd hmm hm⟩

theorem loadBase_to_csv (df : DataTable)
    (hinv : ∀ c ∈ df, stripStr c.1 = c.1 ∧
      (¬c.1 = "REVENUE_PER_EMPLOYEE" → GoodCol c.2 ∧
        (isMoneyCol c.1 = true → ∀ v ∈ c.2, GoodNumCell v))) :
    loadBase (to_csv df)
      = df.map (fun c => if c.1 = "REVENUE_PER_EMPLOYEE"
          then (c.1, readColumn (c.2.map writeCell)) else c) := by
  rw [loadBase, to_csv, cleanDF, List.map_map, List.map_map]
  refine List.map_congr_left ?_
  intro c hc
  obtain ⟨hstrip, hrest⟩ := hinv c hc
  show (if isMoneyCol (stripStr c.1) = true
      then (stripStr c.1, cleanCol (readColumn (c.2.map writeCell)))
      else (stripStr c.1, readColumn (c.2.map writeCell)))
    = if c.1 = "REVENUE_PER_EMPLOYEE" then (c.1, readColumn (c.2.map writeCell)) else c
  rw [hstrip]
  by_cases hcr : c.1 = "REVENUE_PER_EMPLOYEE"
  · rw [if_pos hcr, hcr, if_neg (by decide)]
  · obtain ⟨hgood, hmoney⟩ := hrest hcr
    rw [if_neg hcr]
    by_cases hm : isMoneyCol c.1 = true
    · rw [if_pos hm, readColumn_write_good c.2 hgood, cleanCol_of_num c.2 (hmoney hm)]
    · rw [if_neg hm, readColumn_write_good c.2 hgood]

theorem load_steps_to_csv (df : DataTable)
    (hinv : ∀ c ∈ df, stripStr c.1 = c.1 ∧
      (¬c.1 = "REVENUE_PER_EMPLOYEE" → GoodCol c.2 ∧
        (isMoneyCol c.1 = true → ∀ v ∈ c.2, GoodNumCell v)))
    (rev emp : List Value)
    (hrev : getCol df "REVENUES" = some rev)
    (hemp : getCol df "EMPLOYEES" = some emp)
    (hrpecol : ∀ c ∈ df, c.1 = "REVENUE_PER_EMPLOYEE" →
      c.2 = (List.zipWith vdiv rev emp).map fillZero)
    (hrpe : hasColD df "REVENUE_PER_EMPLOYEE" = true)
    (hne : ¬df = []) :
    load_steps (to_csv df) = Except.ok df := by
  have hne2 : (to_csv df).isEmpty = false := by
    cases df with
    | nil => exact absurd rfl hne
    | cons a t => rfl
  have hbase := loadBase_to_csv df hinv
  have hR : getCol (df.map (fun c => if c.1 = "REVENUE_PER_EMPLOYEE"
      then (c.1, readColumn (c.2.map writeCell)) else c)) "REVENUES" = some rev := by
    rw [getCol_map_if_ne df "REVENUE_PER_EMPLOYEE" "REVENUES"
      (fun c => readColumn (c.2.map writeCell)) (by decide)]
    exact hrev
  have hE : getCol (df.map (fun c => if c.1 = "REVENUE_PER_EMPLOYEE"
      then (c.1, readColumn (c.2.map writeCell)) else c)) "EMPLOYEES" = some emp := by
    rw [getCol_map_if_ne df "REVENUE_PER_EMPLOYEE" "EMPLOYEES"
      (fun c => readColumn (c.2.map writeCell)) (by decide)]
    exact hemp
  have hH : hasColD (df.map (fun c => if c.1 = "REVENUE_PER_EMPLOYEE"
      then (c.1, readColumn (c.2.map writeCell)) else c)) "REVENUE_PER_EMPLOYEE" = true := by
    rw [hasColD_map_if df "REVENUE_PER_EMPLOYEE" "REVENUE_PER_EMPLOYEE"
      (fun c => readColumn (c.2.map writeCell))]
    exact hrpe
  have hset : setCol (df.map (fun c => if c.1 = "REVENUE_PER_EMPLOYEE"
      then (c.1, readColumn (c.2.map writeCell)) else c)) "REVENUE_PER_EMPLOYEE"
      ((List.zipWith vdiv rev emp).map fillZero) = df := by
    rw [setCol, if_pos hH, List.map_map]
    refine (List.map_congr_left ?_).trans (List.map_id df)
    intro c hc
    obtain ⟨c1, c2⟩ := c
    by_cases hcr : c1 = "REVENUE_PER_EMPLOYEE"
    · have h2 : c2 = (List.zipWith vdiv rev emp).map fillZero :=
        hrpecol (c1, c2) hc hcr
      subst hcr
      simp [Function.comp, h2]
    · simp [Function.comp, hcr]
  rw [load_steps_eq _ hne2, hbase, requireCol_of_getCol _ _ _ hR,
    requireCol_of_getCol _ _ _ hE]
  show Except.ok (setCol (df.map (fun c => if c.1 = "REVENUE_PER_EMPLOYEE"
      then (c.1, readColumn (c.2.map writeCell)) else c)) "REVENUE_PER_EMPLOYEE"
      ((List.zipWith vdiv rev emp).map fillZero)) = Except.ok df
  rw [hset]

/-- C9: round-trip through the export boundary — serializing the loaded
dataset with `to_csv` and re-parsing the output through the same
`load_data` pipeline reproduces the dataset exactly (same columns, same
count, same per-field values), for every raw input, the failed-load case
included. -/
theorem c9_roundtrip (raw : RawTable) :
    load_data (to_csv (load_data raw)) = load_data raw := by
  rcases hls : load_steps raw with e | df
  · have h1 : load_data raw = [] := by rw [load_data, hls]
    rw [h1]
    rfl
  · have h1 : load_data raw = df := by rw [load_data, hls]
    rw [h1]
    obtain ⟨rev, emp, hrev, hemp, hdf⟩ := load_steps_ok raw df hls
    have hinv : ∀ c ∈ df, stripStr c.1 = c.1 ∧
        (¬c.1 = "REVENUE_PER_EMPLOYEE" → GoodCol c.2 ∧
          (isMoneyCol c.1 = true → ∀ v ∈ c.2, GoodNumCell v)) := by
      intro c hc
      rw [hdf] at hc
      rcases mem_setCol _ _ _ c hc with ⟨hcb, hcn⟩ | rfl
      · obtain ⟨i1, i2, i3⟩ := loadBase_inv raw c hcb
        exact ⟨i1, fun _ => ⟨i2, i3⟩⟩
      · have hs : stripStr "REVENUE_PER_EMPLOYEE" = "REVENUE_PER_EMPLOYEE" := by decide
        exact ⟨hs, fun hcn => absurd rfl hcn⟩
    have hrpecol : ∀ c ∈ df, c.1 = "REVENUE_PER_EMPLOYEE" →
        c.2 = (List.zipWith vdiv rev emp).map fillZero := by
      intro c hc hcr
      rw [hdf] at hc
      rcases mem_setCol _ _ _ c hc with ⟨_, hcn⟩ | rfl
      · exact absurd hcr hcn
      · rfl
    have hrev2 : getCol df "REVENUES" = some rev := by
      rw [hdf, getCol_setCol_ne _ _ _ _ (by decide)]
      exact hrev
    have hemp2 : getCol df "EMPLOYEES" = some emp := by
      rw [hdf, getCol_setCol_ne _ _ _ _ (by decide)]
      exact hemp
    have hhas : hasColD df "REVENUE_PER_EMPLOYEE" = true := by
      rw [hdf]
      exact hasColD_setCol_self _ _ _
    have hne : ¬df = [] := by
      rw [hdf]
      exact setCol_ne_nil _ _ _
    rw [load_data, load_steps_to_csv df hinv rev emp hrev2 hemp2 hrpecol hhas hne]

end F500
